import Mathlib

/-!
# Formal model of the emu-utils savestate serialization engine

This file embeds the savestate codec of the emu-utils repository
(`src/savestate/write.rs`, `src/savestate/read.rs`, and the derive glue in
`macros/src/savestate.rs`) into Lean and proves the specification claims
about it.

Modelling conventions:
* Byte buffers are `List Nat` whose elements are byte values; little-endian
  encodings are produced by `toLeBytes`, which always yields values `< 256`.
* Machine integers are `Nat` / `Int` with explicit `% 2^w` where the Rust
  code wraps; `usize`/`isize` are modelled as 64-bit (the targets the crate
  supports).
* Fallible operations return `Except WriteError _` on the write side and a
  four-valued result `RRes` on the read side, whose extra constructors
  record a safe-Rust panic (`.panic`, e.g. an out-of-bounds `Vec` index)
  and undefined behaviour (`.ub`, an unchecked out-of-bounds slice access).
* Struct-frame stacks are lists with the most recently pushed frame at the
  head (the Rust code pushes/pops at the end of a `Vec`).
-/

/-- `u32::MAX`. -/
def u32max : Nat := 2 ^ 32 - 1

/-- Little-endian byte encoding of `v`, `k` bytes wide (wrapping mod `2^(8*k)`,
exactly as the raw value codec's `write_le` does for a `k`-byte integer). -/
def toLeBytes : Nat → Nat → List Nat
  | 0, _ => []
  | k + 1, v => (v % 256) :: toLeBytes k (v / 256)

/-- Little-endian byte decoding, as the raw value codec's `read_le`. -/
def fromLeBytes : List Nat → Nat
  | [] => 0
  | b :: bs => b + 256 * fromLeBytes bs

theorem toLeBytes_length (k v : Nat) : (toLeBytes k v).length = k := by
  induction k generalizing v with
  | zero => rfl
  | succ k ih => simp [toLeBytes, ih]

theorem fromLeBytes_toLeBytes (k v : Nat) :
    fromLeBytes (toLeBytes k v) = v % 256 ^ k := by
  induction k generalizing v with
  | zero => simp [toLeBytes, fromLeBytes, Nat.mod_one]
  | succ k ih =>
    simp only [toLeBytes, fromLeBytes, ih]
    rw [Nat.pow_succ', Nat.mod_mul]

theorem fromLeBytes_toLeBytes_of_lt {k v : Nat} (h : v < 256 ^ k) :
    fromLeBytes (toLeBytes k v) = v := by
  rw [fromLeBytes_toLeBytes, Nat.mod_eq_of_lt h]

theorem toLeBytes_mod (k v : Nat) : toLeBytes k (v % 256 ^ k) = toLeBytes k v := by
  induction k generalizing v with
  | zero => rfl
  | succ k ih =>
    simp only [toLeBytes]
    refine congrArg₂ List.cons ?_ ?_
    · rw [Nat.pow_succ', Nat.mod_mul_right_mod]
    · rw [Nat.pow_succ', Nat.mod_mul_right_div_self, ih]

/-- Overwrite `bs.length` bytes of `buf` starting at index `p`
(the write side's backpatch `write_le` into the reserved placeholder). -/
def setBytes (buf : List Nat) (p : Nat) (bs : List Nat) : List Nat :=
  buf.take p ++ bs ++ buf.drop (p + bs.length)

/-! ## Persistent write channel (`src/savestate/write.rs`) -/

/-- `StructInfo` from `write.rs`: one open struct frame on the write side. -/
structure WStructInfo where
  start_pos : Nat
  fields : List (List Nat × Nat)
deriving DecidableEq

/-- State of a `PersistentWriteSavestate`: the output buffer plus the stack
of open struct frames (head = most recently pushed). -/
structure PersistentWriteSavestate where
  save : List Nat
  structs : List WStructInfo
deriving DecidableEq

/-- `WriteError` from `write.rs`. -/
inductive WriteError where
  | NoStructPresent
  | TooManyFields
  | SaveTooLarge
deriving DecidableEq

namespace PersistentWriteSavestate

/-- `store_raw::<T>` for a `size`-byte integer: append the little-endian bytes. -/
def store_raw (size v : Nat) (s : PersistentWriteSavestate) : PersistentWriteSavestate :=
  { s with save := s.save ++ toLeBytes size v }

/-- `store_bytes`: append an opaque byte region verbatim. -/
def store_bytes (bs : List Nat) (s : PersistentWriteSavestate) : PersistentWriteSavestate :=
  { s with save := s.save ++ bs }

/-- `store_array_len`: `u32::try_from(len)` (fails with `TooManyFields`),
then `store_raw` the 4-byte length. -/
def store_array_len (len : Nat) (s : PersistentWriteSavestate) :
    Except WriteError PersistentWriteSavestate :=
  if len ≤ u32max then .ok (store_raw 4 len s) else .error .TooManyFields

/-- `start_struct`: check the current length fits a `u32`, append 4
placeholder bytes, push a frame recording where they are. -/
def start_struct (s : PersistentWriteSavestate) : Except WriteError PersistentWriteSavestate :=
  if s.save.length ≤ u32max then
    .ok { save := s.save ++ [0, 0, 0, 0],
          structs := ⟨s.save.length, []⟩ :: s.structs }
  else .error .SaveTooLarge

/-- The directory trailer written by `end_struct`'s loop: per recorded field,
the name bytes, a `0x00` terminator, and the 4-byte little-endian offset. -/
def entriesBytes : List (List Nat × Nat) → List Nat
  | [] => []
  | (ident, pos) :: rest => ident ++ [0] ++ toLeBytes 4 pos ++ entriesBytes rest

/-- `end_struct`: pop the frame, backpatch the reserved 4 bytes with the
current length (where the directory starts), append the one-byte field count
(`u8::try_from`, failing with `TooManyFields`) and the directory entries. -/
def end_struct (s : PersistentWriteSavestate) : Except WriteError PersistentWriteSavestate :=
  match s.structs with
  | [] => .error .NoStructPresent
  | f :: rest =>
    if s.save.length ≤ u32max then
      let patched := setBytes s.save f.start_pos (toLeBytes 4 s.save.length)
      if f.fields.length ≤ 255 then
        .ok { save := patched ++ [f.fields.length] ++ entriesBytes f.fields,
              structs := rest }
      else .error .TooManyFields
    else .error .SaveTooLarge

/-- `start_field`: record `(ident, current length)` in the open frame. -/
def start_field (ident : List Nat) (s : PersistentWriteSavestate) :
    Except WriteError PersistentWriteSavestate :=
  match s.structs with
  | [] => .error .NoStructPresent
  | f :: rest =>
    if s.save.length ≤ u32max then
      .ok { s with structs := { f with fields := f.fields ++ [(ident, s.save.length)] } :: rest }
    else .error .SaveTooLarge

end PersistentWriteSavestate

/-! ## Persistent read channel (`src/savestate/read.rs`) -/

/-- `ReadError` from `read.rs`. -/
inductive ReadError where
  | FieldNotFound
  | UnexpectedEof
  | NoStructPresent
  | InvalidEnum
deriving DecidableEq

/-- `StructInfo` from `read.rs`: a parsed field directory, the resume
position after the directory, and the remembered scan index `cur_field`. -/
structure RStructInfo where
  fields : List (List Nat × Nat)
  endPos : Nat
  cur_field : Nat
deriving DecidableEq

/-- State of a `PersistentReadSavestate`: the borrowed input bytes, the
cursor, and the stack of open struct frames (head = most recent). -/
structure PersistentReadSavestate where
  save : List Nat
  pos : Nat
  structs : List RStructInfo
deriving DecidableEq

/-- Result of a read-side operation. Besides success and the typed
`ReadError`s, `.panic` records a safe-Rust panic (an out-of-bounds `Vec`
index) and `.ub` records undefined behaviour (an unchecked out-of-bounds
access into the byte slice). -/
inductive RRes (α : Type) where
  | ok : α → RRes α
  | err : ReadError → RRes α
  | panic : RRes α
  | ub : RRes α
deriving DecidableEq

/-- Model of an unchecked raw read of `len` bytes at `start`: `none` when it
would leave the slice (undefined behaviour in the source). -/
def readExact (save : List Nat) (start len : Nat) : Option (List Nat) :=
  if start + len ≤ save.length then some ((save.drop start).take len) else none

namespace PersistentReadSavestate

/-- `PersistentReadSavestate::new`: reject inputs longer than `u32::MAX`. -/
def new (save : List Nat) : Option PersistentReadSavestate :=
  if save.length ≤ u32max then some { save := save, pos := 0, structs := [] } else none

/-- `load_raw::<T>` for a `size`-byte integer: bounds-check
`start + size <= len`, then read little-endian and advance the cursor. -/
def load_raw (size : Nat) (s : PersistentReadSavestate) : RRes (Nat × PersistentReadSavestate) :=
  if s.pos + size > s.save.length then .err .UnexpectedEof
  else
    match readExact s.save s.pos size with
    | some bs => .ok (fromLeBytes bs, { s with pos := s.pos + size })
    | none => .ub

/-- `load_bytes`: bounds-check, then hand back the `len` bytes at the cursor
and advance it. -/
def load_bytes (len : Nat) (s : PersistentReadSavestate) :
    RRes (List Nat × PersistentReadSavestate) :=
  if s.pos + len > s.save.length then .err .UnexpectedEof
  else
    match readExact s.save s.pos len with
    | some bs => .ok (bs, { s with pos := s.pos + len })
    | none => .ub

/-- The directory-entry parse loop inside `start_struct`: read `n` entries
starting at offset `p` (name bytes up to the first `0x00` — or the end of
the buffer — then a 4-byte little-endian offset), returning the parsed
`(name, offset)` list and the offset just past the last entry.
The slice `save[p..]` is taken unchecked in the source, hence `.ub` when
`p` exceeds the length. -/
def parseFields (save : List Nat) : Nat → Nat → RRes (List (List Nat × Nat) × Nat)
  | 0, p => .ok ([], p)
  | n + 1, p =>
    if p > save.length then .ub
    else
      let tail := save.drop p
      let len := (tail.takeWhile (fun b => b ≠ 0)).length
      let identBytes := tail.take len
      let identEnd := p + len + 1
      if identEnd + 4 > save.length then .err .UnexpectedEof
      else
        match readExact save identEnd 4 with
        | some offBytes =>
          match parseFields save n (identEnd + 4) with
          | .ok (rest, finalPos) => .ok ((identBytes, fromLeBytes offBytes) :: rest, finalPos)
          | .err e => .err e
          | .panic => .panic
          | .ub => .ub
        | none => .ub

/-- `start_struct`: read the 4-byte directory offset, fetch the field count
byte there (`save.get`, failing with `UnexpectedEof`), parse the directory,
and push a frame whose resume position is the end of the directory and
whose remembered index starts at 0. -/
def start_struct (s : PersistentReadSavestate) : RRes PersistentReadSavestate :=
  match load_raw 4 s with
  | .ok (dirOff, s1) =>
    match s1.save.get? dirOff with
    | none => .err .UnexpectedEof
    | some fieldsLen =>
      match parseFields s1.save fieldsLen (dirOff + 1) with
      | .ok (fields, endPos) =>
        .ok { s1 with structs := ⟨fields, endPos, 0⟩ :: s1.structs }
      | .err e => .err e
      | .panic => .panic
      | .ub => .ub
  | .err e => .err e
  | .panic => .panic
  | .ub => .ub

/-- `end_struct`: pop the frame and jump to its resume position. -/
def end_struct (s : PersistentReadSavestate) : RRes PersistentReadSavestate :=
  match s.structs with
  | [] => .err .NoStructPresent
  | f :: rest => .ok { s with pos := f.endPos, structs := rest }

/-- Result of the `start_field` scan loop. -/
inductive ScanRes where
  | found : Nat → Nat → ScanRes
  | notFound : ScanRes
  | panic : ScanRes
  | nofuel : ScanRes
deriving DecidableEq

/-- The scan loop of `start_field`: starting at index `i`, examine
`fields[i]` (panicking when out of bounds, which happens iff the directory
is empty), wrap the incremented index at `fields.length`, succeed on a name
match with the advanced index and the entry's offset, and fail with
not-found when the incremented index returns to `start`.
The source's `u8` counters are modelled as `Nat`; this is exact for the
directories `start_struct` builds, whose length fits in one byte. The loop
is given fuel; `fields.length + 1` is enough for it never to run out. -/
def scanLoop (fields : List (List Nat × Nat)) (ident : List Nat) (start : Nat) :
    Nat → Nat → ScanRes
  | 0, _ => .nofuel
  | fuel + 1, i =>
    match fields.get? i with
    | none => .panic
    | some field =>
      let i' := if i + 1 = fields.length then 0 else i + 1
      if field.1 = ident then .found i' field.2
      else if i' = start then .notFound
      else scanLoop fields ident start fuel i'

/-- `start_field`: scan the open frame's directory from the remembered
index; on a match set the cursor to the entry's offset and remember the
index just past the match. -/
def start_field (ident : List Nat) (s : PersistentReadSavestate) : RRes PersistentReadSavestate :=
  match s.structs with
  | [] => .err .NoStructPresent
  | f :: rest =>
    match scanLoop f.fields ident f.cur_field (f.fields.length + 1) f.cur_field with
    | .found newCur off =>
      .ok { s with pos := off, structs := { f with cur_field := newCur } :: rest }
    | .notFound => .err .FieldNotFound
    | .panic => .panic
    | .nofuel => .panic

end PersistentReadSavestate

/-! ## Transient write channel (`src/savestate/write.rs`)

The state is just the output buffer. Native byte order is modelled as
little-endian (the byte order is immaterial to the claims proved here).
The error type is `Empty`, mirroring `Infallible`. -/

namespace TransientWriteSavestate

/-- Transient `store_raw`: append the native-order bytes. -/
def store_raw (size v : Nat) (buf : List Nat) : List Nat := buf ++ toLeBytes size v

/-- Transient `store_bytes`: append the region verbatim. -/
def store_bytes (bs : List Nat) (buf : List Nat) : List Nat := buf ++ bs

/-- Transient `store_array_len`: `store_raw(len as u32)` (wrapping cast). -/
def store_array_len (len : Nat) (buf : List Nat) : Except Empty (List Nat) :=
  .ok (store_raw 4 (len % 2 ^ 32) buf)

/-- Transient `start_struct`: a no-op. -/
def start_struct (buf : List Nat) : Except Empty (List Nat) := .ok buf

/-- Transient `end_struct`: a no-op. -/
def end_struct (buf : List Nat) : Except Empty (List Nat) := .ok buf

/-- Transient `start_field`: a no-op. -/
def start_field (_ident : List Nat) (buf : List Nat) : Except Empty (List Nat) := .ok buf

end TransientWriteSavestate

/-! ## Derived enum discriminants (`macros/src/savestate.rs`) -/

/-- `32 - n.leading_zeros()` for `n < 2^32`: the bit length of `n`. -/
def bitLen (n : Nat) : Nat := if n = 0 then 0 else Nat.log2 n + 1

/-- Rust's `u32::next_power_of_two`: the smallest power of two `≥ n`
(with `0` and `1` mapping to `1`). -/
def nextPow2 (n : Nat) : Nat := if n ≤ 1 then 1 else 2 ^ bitLen (n - 1)

/-- The derive macro's discriminant width in bits for an enum with `count`
variants: `(32 - count.leading_zeros()).next_power_of_two().max(8)`. -/
def discrBits (count : Nat) : Nat := max (nextPow2 (bitLen count)) 8

/-- Discriminant width in bytes (`u{discrBits}` is stored via `store_raw`). -/
def discrBytes (count : Nat) : Nat := discrBits count / 8

/-! ## The type codec contract: supported shapes

`Ty` describes the shape a `Loadable` implementation decodes; `Val` is the
corresponding value universe that `Storable` encodes. Derived structs carry
their field names; a derived enum value carries its variant count, the
variant index, and the variant payload (a struct shape for named-field
variants, a tuple shape for tuple variants, unit for unit variants, exactly
as the derive macro emits). -/

inductive Ty : Type where
  | uN (w : Nat)
  | iN (w : Nat)
  | usizeT
  | isizeT
  | f32T
  | f64T
  | boolT
  | unitT
  | bytesT (len : Nat)
  | vecT (t : Ty)
  | arrT (t : Ty) (len : Nat)
  | optT (t : Ty)
  | boxT (t : Ty)
  | cellT (t : Ty)
  | tupleT (ts : List Ty)
  | structT (fields : List (List Nat × Ty))
  | enumT (variants : List Ty)

inductive Val : Type where
  | uV (w : Nat) (v : Nat)
  | iV (w : Nat) (v : Int)
  | usizeV (v : Nat)
  | isizeV (v : Int)
  | f32V (bits : Nat)
  | f64V (bits : Nat)
  | boolV (b : Bool)
  | unitV
  | bytesV (bs : List Nat)
  | vecV (elems : List Val)
  | arrV (elems : List Val)
  | noneV
  | someV (v : Val)
  | boxV (v : Val)
  | cellV (v : Val)
  | tupleV (elems : List Val)
  | structV (fields : List (List Nat × Val))
  | enumV (count idx : Nat) (payload : Val)

/-- Two's-complement residue of a signed `w`-byte integer: the `Nat` whose
little-endian bytes `write_le` emits. -/
def intToNat (w : Nat) (v : Int) : Nat := (v % ((2 : Int) ^ (8 * w))).toNat

/-- Reinterpret an unsigned `w`-byte integer as signed (what `read_le` of a
signed type yields). -/
def natToInt (w : Nat) (n : Nat) : Int :=
  if n < 2 ^ (8 * w - 1) then (n : Int) else (n : Int) - 2 ^ (8 * w)

mutual

/-- `Storable::store` over the supported shapes, on the persistent write
channel: the `impl_storable_raw!` primitives (`usize as u32`, `isize as
i32`, floats as bits), the tuple/array/`Vec`/`Option`/`Box`/`Cell`/`Bytes`/
`bool`/`()` impls of `write.rs`, and the struct/enum bodies emitted by the
derive macro. -/
def storeVal : Val → PersistentWriteSavestate → Except WriteError PersistentWriteSavestate
  | .uV w v, s => .ok (s.store_raw w v)
  | .iV w v, s => .ok (s.store_raw w (intToNat w v))
  | .usizeV v, s => .ok (s.store_raw 4 (v % 2 ^ 32))
  | .isizeV v, s => .ok (s.store_raw 4 (intToNat 4 v))
  | .f32V bits, s => .ok (s.store_raw 4 bits)
  | .f64V bits, s => .ok (s.store_raw 8 bits)
  | .boolV b, s => .ok (s.store_raw 1 (if b then 1 else 0))
  | .unitV, s => .ok s
  | .bytesV bs, s => .ok (s.store_bytes bs)
  | .noneV, s => .ok (s.store_raw 1 0)
  | .someV v, s => storeVal v (s.store_raw 1 1)
  | .boxV v, s => storeVal v s
  | .cellV v, s => storeVal v s
  | .vecV vs, s =>
    match s.store_array_len vs.length with
    | .ok s1 => storeList vs s1
    | .error e => .error e
  | .arrV vs, s => storeList vs s
  | .tupleV vs, s => storeList vs s
  | .structV fs, s =>
    match s.start_struct with
    | .ok s1 =>
      match storeFields fs s1 with
      | .ok s2 => s2.end_struct
      | .error e => .error e
    | .error e => .error e
  | .enumV count idx payload, s => storeVal payload (s.store_raw (discrBytes count) idx)

/-- Element-wise store (array/tuple/`Vec` element loops). -/
def storeList : List Val → PersistentWriteSavestate → Except WriteError PersistentWriteSavestate
  | [], s => .ok s
  | v :: vs, s =>
    match storeVal v s with
    | .ok s1 => storeList vs s1
    | .error e => .error e

/-- The per-field store loop of a derived struct: `start_field(name)` then
the field's store. -/
def storeFields :
    List (List Nat × Val) → PersistentWriteSavestate → Except WriteError PersistentWriteSavestate
  | [], s => .ok s
  | (ident, v) :: fs, s =>
    match s.start_field ident with
    | .ok s1 =>
      match storeVal v s1 with
      | .ok s2 => storeFields fs s2
      | .error e => .error e
    | .error e => .error e

end

mutual

/-- `Loadable::load` over the supported shapes, on the persistent read
channel: the `impl_loadable_raw!` primitives, the composite impls of
`read.rs`, and the struct/enum bodies emitted by the derive macro. -/
def loadVal : Ty → PersistentReadSavestate → RRes (Val × PersistentReadSavestate)
  | .uN w, s =>
    match s.load_raw w with
    | .ok (n, s1) => .ok (.uV w n, s1)
    | .err e => .err e
    | .panic => .panic
    | .ub => .ub
  | .iN w, s =>
    match s.load_raw w with
    | .ok (n, s1) => .ok (.iV w (natToInt w n), s1)
    | .err e => .err e
    | .panic => .panic
    | .ub => .ub
  | .usizeT, s =>
    match s.load_raw 4 with
    | .ok (n, s1) => .ok (.usizeV n, s1)
    | .err e => .err e
    | .panic => .panic
    | .ub => .ub
  | .isizeT, s =>
    match s.load_raw 4 with
    | .ok (n, s1) => .ok (.isizeV (natToInt 4 n), s1)
    | .err e => .err e
    | .panic => .panic
    | .ub => .ub
  | .f32T, s =>
    match s.load_raw 4 with
    | .ok (n, s1) => .ok (.f32V n, s1)
    | .err e => .err e
    | .panic => .panic
    | .ub => .ub
  | .f64T, s =>
    match s.load_raw 8 with
    | .ok (n, s1) => .ok (.f64V n, s1)
    | .err e => .err e
    | .panic => .panic
    | .ub => .ub
  | .boolT, s =>
    match s.load_raw 1 with
    | .ok (n, s1) => .ok (.boolV (n != 0), s1)
    | .err e => .err e
    | .panic => .panic
    | .ub => .ub
  | .unitT, s => .ok (.unitV, s)
  | .bytesT len, s =>
    match s.load_bytes len with
    | .ok (bs, s1) => .ok (.bytesV bs, s1)
    | .err e => .err e
    | .panic => .panic
    | .ub => .ub
  | .vecT t, s =>
    match s.load_raw 4 with
    | .ok (n, s1) =>
      match loadRepeat t n s1 with
      | .ok (vs, s2) => .ok (.vecV vs, s2)
      | .err e => .err e
      | .panic => .panic
      | .ub => .ub
    | .err e => .err e
    | .panic => .panic
    | .ub => .ub
  | .arrT t len, s =>
    match loadRepeat t len s with
    | .ok (vs, s1) => .ok (.arrV vs, s1)
    | .err e => .err e
    | .panic => .panic
    | .ub => .ub
  | .optT t, s =>
    match s.load_raw 1 with
    | .ok (n, s1) =>
      if n = 0 then .ok (.noneV, s1)
      else
        match loadVal t s1 with
        | .ok (v, s2) => .ok (.someV v, s2)
        | .err e => .err e
        | .panic => .panic
        | .ub => .ub
    | .err e => .err e
    | .panic => .panic
    | .ub => .ub
  | .boxT t, s =>
    match loadVal t s with
    | .ok (v, s1) => .ok (.boxV v, s1)
    | .err e => .err e
    | .panic => .panic
    | .ub => .ub
  | .cellT t, s =>
    match loadVal t s with
    | .ok (v, s1) => .ok (.cellV v, s1)
    | .err e => .err e
    | .panic => .panic
    | .ub => .ub
  | .tupleT ts, s =>
    match loadList ts s with
    | .ok (vs, s1) => .ok (.tupleV vs, s1)
    | .err e => .err e
    | .panic => .panic
    | .ub => .ub
  | .structT fs, s =>
    match s.start_struct with
    | .ok s1 =>
      match loadFields fs s1 with
      | .ok (vs, s2) =>
        match s2.end_struct with
        | .ok s3 => .ok (.structV vs, s3)
        | .err e => .err e
        | .panic => .panic
        | .ub => .ub
      | .err e => .err e
      | .panic => .panic
      | .ub => .ub
    | .err e => .err e
    | .panic => .panic
    | .ub => .ub
  | .enumT vs, s =>
    match s.load_raw (discrBytes vs.length) with
    | .ok (d, s1) =>
      match loadVariant vs d s1 with
      | .ok (payload, s2) => .ok (.enumV vs.length d payload, s2)
      | .err e => .err e
      | .panic => .panic
      | .ub => .ub
    | .err e => .err e
    | .panic => .panic
    | .ub => .ub
termination_by t s => (sizeOf t, 0)

/-- The derive macro's `match discriminant` over the variant list: variant
`d` of the list, or `InvalidEnum` past the end (the `_ =>` arm). -/
def loadVariant : List Ty → Nat → PersistentReadSavestate → RRes (Val × PersistentReadSavestate)
  | [], _, _ => .err .InvalidEnum
  | t :: _, 0, s => loadVal t s
  | _ :: ts, d + 1, s => loadVariant ts d s
termination_by vs d s => (sizeOf vs, 0)

/-- Element-wise load for tuples. -/
def loadList : List Ty → PersistentReadSavestate → RRes (List Val × PersistentReadSavestate)
  | [], s => .ok ([], s)
  | t :: ts, s =>
    match loadVal t s with
    | .ok (v, s1) =>
      match loadList ts s1 with
      | .ok (vs, s2) => .ok (v :: vs, s2)
      | .err e => .err e
      | .panic => .panic
      | .ub => .ub
    | .err e => .err e
    | .panic => .panic
    | .ub => .ub
termination_by ts s => (sizeOf ts, 0)

/-- `n`-fold element-wise load (fixed arrays and `Vec` bodies). -/
def loadRepeat : Ty → Nat → PersistentReadSavestate → RRes (List Val × PersistentReadSavestate)
  | _, 0, s => .ok ([], s)
  | t, n + 1, s =>
    match loadVal t s with
    | .ok (v, s1) =>
      match loadRepeat t n s1 with
      | .ok (vs, s2) => .ok (v :: vs, s2)
      | .err e => .err e
      | .panic => .panic
      | .ub => .ub
    | .err e => .err e
    | .panic => .panic
    | .ub => .ub
termination_by t n s => (sizeOf t, n + 1)

/-- The per-field load loop of a derived struct: `start_field(name)` then
the field's load. -/
def loadFields :
    List (List Nat × Ty) → PersistentReadSavestate →
      RRes (List (List Nat × Val) × PersistentReadSavestate)
  | [], s => .ok ([], s)
  | (ident, t) :: fs, s =>
    match s.start_field ident with
    | .ok s1 =>
      match loadVal t s1 with
      | .ok (v, s2) =>
        match loadFields fs s2 with
        | .ok (vs, s3) => .ok ((ident, v) :: vs, s3)
        | .err e => .err e
        | .panic => .panic
        | .ub => .ub
      | .err e => .err e
      | .panic => .panic
      | .ub => .ub
    | .err e => .err e
    | .panic => .panic
    | .ub => .ub
termination_by fs s => (sizeOf fs, 0)

end

/-! ## Well-formedness for the round trip

`rtWf t v` says that `v` is a value of shape `t` whose round trip the
format can represent: machine integers within their width, `usize`/`isize`
values that survive the `as u32`/`as i32` casts, sequence lengths that fit
the 4-byte prefix, struct directories with at most 255 fields and
`0x00`-free names, and enum discriminants within the declared variants. -/

/-- The integer widths `impl_storable_raw!` instantiates (in bytes). -/
def rawWidth (w : Nat) : Bool := w == 1 || w == 2 || w == 4 || w == 8 || w == 16

mutual

def rtWf : Ty → Val → Bool
  | .uN w, .uV w' v => w == w' && rawWidth w && decide (v < 2 ^ (8 * w))
  | .iN w, .iV w' v =>
    w == w' && rawWidth w &&
      decide (-((2 : Int) ^ (8 * w - 1)) ≤ v ∧ v < (2 : Int) ^ (8 * w - 1))
  | .usizeT, .usizeV v => decide (v < 2 ^ 32)
  | .isizeT, .isizeV v => decide (-((2 : Int) ^ 31) ≤ v ∧ v < (2 : Int) ^ 31)
  | .f32T, .f32V bits => decide (bits < 2 ^ 32)
  | .f64T, .f64V bits => decide (bits < 2 ^ 64)
  | .boolT, .boolV _ => true
  | .unitT, .unitV => true
  | .bytesT len, .bytesV bs => bs.length == len && bs.all (fun b => b < 256)
  | .vecT t, .vecV vs => decide (vs.length ≤ u32max) && rtWfAll t vs
  | .arrT t len, .arrV vs => vs.length == len && rtWfAll t vs
  | .optT _, .noneV => true
  | .optT t, .someV v => rtWf t v
  | .boxT t, .boxV v => rtWf t v
  | .cellT t, .cellV v => rtWf t v
  | .tupleT ts, .tupleV vs => rtWfZip ts vs
  | .structT fts, .structV fvs => decide (fvs.length ≤ 255) && rtWfFields fts fvs
  | .enumT vts, .enumV count idx payload =>
    count == vts.length &&
      match vts.get? idx with
      | some t => rtWf t payload
      | none => false
  | _, _ => false
termination_by t v => sizeOf v

def rtWfAll : Ty → List Val → Bool
  | _, [] => true
  | t, v :: vs => rtWf t v && rtWfAll t vs
termination_by t vs => sizeOf vs

def rtWfZip : List Ty → List Val → Bool
  | [], [] => true
  | t :: ts, v :: vs => rtWf t v && rtWfZip ts vs
  | _, _ => false
termination_by ts vs => sizeOf vs

def rtWfFields : List (List Nat × Ty) → List (List Nat × Val) → Bool
  | [], [] => true
  | (n1, t) :: fts, (n2, v) :: fvs =>
    n1 == n2 && !(n1.contains 0) && rtWf t v && rtWfFields fts fvs
  | _, _ => false
termination_by fts fvs => sizeOf fvs

end

/-! ## The persistent encoding, characterized

`encVal v base` is the byte string that storing `v` appends to a buffer of
length `base` (directory offsets are absolute, so the encoding depends on
the start position). These are reference definitions; the theorems below
prove that `storeVal` produces exactly these bytes and that `loadVal`
decodes them back. -/

mutual

def encVal : Val → Nat → List Nat
  | .uV w v, _ => toLeBytes w v
  | .iV w v, _ => toLeBytes w (intToNat w v)
  | .usizeV v, _ => toLeBytes 4 (v % 2 ^ 32)
  | .isizeV v, _ => toLeBytes 4 (intToNat 4 v)
  | .f32V bits, _ => toLeBytes 4 bits
  | .f64V bits, _ => toLeBytes 8 bits
  | .boolV b, _ => toLeBytes 1 (if b then 1 else 0)
  | .unitV, _ => []
  | .bytesV bs, _ => bs
  | .noneV, _ => toLeBytes 1 0
  | .someV v, base => toLeBytes 1 1 ++ encVal v (base + 1)
  | .boxV v, base => encVal v base
  | .cellV v, base => encVal v base
  | .vecV vs, base => toLeBytes 4 vs.length ++ encList vs (base + 4)
  | .arrV vs, base => encList vs base
  | .tupleV vs, base => encList vs base
  | .structV fs, base =>
    let payload := encFields fs (base + 4)
    toLeBytes 4 (base + 4 + payload.length) ++ payload ++ [fs.length] ++
      PersistentWriteSavestate.entriesBytes (fieldOffs fs (base + 4))
  | .enumV count idx payload, base =>
    toLeBytes (discrBytes count) idx ++ encVal payload (base + discrBytes count)
termination_by v base => sizeOf v

def encList : List Val → Nat → List Nat
  | [], _ => []
  | v :: vs, base => encVal v base ++ encList vs (base + (encVal v base).length)
termination_by vs base => sizeOf vs

def encFields : List (List Nat × Val) → Nat → List Nat
  | [], _ => []
  | (_, v) :: fs, base => encVal v base ++ encFields fs (base + (encVal v base).length)
termination_by fs base => sizeOf fs

/-- The `(name, absolute offset)` directory a struct's fields occupy when the
first field starts at `base`. -/
def fieldOffs : List (List Nat × Val) → Nat → List (List Nat × Nat)
  | [], _ => []
  | (n, v) :: fs, base => (n, base) :: fieldOffs fs (base + (encVal v base).length)
termination_by fs base => sizeOf fs

end

/-! ## `Storable::store` on the transient channel -/

mutual

/-- `Storable::store` over the supported shapes, on the transient write
channel (same dispatch as `storeVal`, but through the transient ops, whose
error type is `Infallible` and whose bracketing calls are no-ops). -/
def tStoreVal : Val → List Nat → List Nat
  | .uV w v, b => TransientWriteSavestate.store_raw w v b
  | .iV w v, b => TransientWriteSavestate.store_raw w (intToNat w v) b
  | .usizeV v, b => TransientWriteSavestate.store_raw 4 (v % 2 ^ 32) b
  | .isizeV v, b => TransientWriteSavestate.store_raw 4 (intToNat 4 v) b
  | .f32V bits, b => TransientWriteSavestate.store_raw 4 bits b
  | .f64V bits, b => TransientWriteSavestate.store_raw 8 bits b
  | .boolV bo, b => TransientWriteSavestate.store_raw 1 (if bo then 1 else 0) b
  | .unitV, b => b
  | .bytesV bs, b => TransientWriteSavestate.store_bytes bs b
  | .noneV, b => TransientWriteSavestate.store_raw 1 0 b
  | .someV v, b => tStoreVal v (TransientWriteSavestate.store_raw 1 1 b)
  | .boxV v, b => tStoreVal v b
  | .cellV v, b => tStoreVal v b
  | .vecV vs, b =>
    match TransientWriteSavestate.store_array_len vs.length b with
    | .ok b1 => tStoreList vs b1
    | .error e => e.elim
  | .arrV vs, b => tStoreList vs b
  | .tupleV vs, b => tStoreList vs b
  | .structV fs, b =>
    match TransientWriteSavestate.start_struct b with
    | .ok b1 =>
      match tStoreFields fs b1 with
      | b2 =>
        match TransientWriteSavestate.end_struct b2 with
        | .ok b3 => b3
        | .error e => e.elim
    | .error e => e.elim
  | .enumV count idx payload, b =>
    tStoreVal payload (TransientWriteSavestate.store_raw (discrBytes count) idx b)
termination_by v b => sizeOf v

def tStoreList : List Val → List Nat → List Nat
  | [], b => b
  | v :: vs, b => tStoreList vs (tStoreVal v b)
termination_by vs b => sizeOf vs

def tStoreFields : List (List Nat × Val) → List Nat → List Nat
  | [], b => b
  | (ident, v) :: fs, b =>
    match TransientWriteSavestate.start_field ident b with
    | .ok b1 => tStoreFields fs (tStoreVal v b1)
    | .error e => e.elim
termination_by fs b => sizeOf fs

end

mutual

/-- The transient encoding: nothing but the concatenated raw value bytes
(no names, terminators, counts or directory offsets). -/
def tEnc : Val → List Nat
  | .uV w v => toLeBytes w v
  | .iV w v => toLeBytes w (intToNat w v)
  | .usizeV v => toLeBytes 4 (v % 2 ^ 32)
  | .isizeV v => toLeBytes 4 (intToNat 4 v)
  | .f32V bits => toLeBytes 4 bits
  | .f64V bits => toLeBytes 8 bits
  | .boolV bo => toLeBytes 1 (if bo then 1 else 0)
  | .unitV => []
  | .bytesV bs => bs
  | .noneV => toLeBytes 1 0
  | .someV v => toLeBytes 1 1 ++ tEnc v
  | .boxV v => tEnc v
  | .cellV v => tEnc v
  | .vecV vs => toLeBytes 4 (vs.length % 2 ^ 32) ++ tEncList vs
  | .arrV vs => tEncList vs
  | .tupleV vs => tEncList vs
  | .structV fs => tEncFields fs
  | .enumV count idx payload => toLeBytes (discrBytes count) idx ++ tEnc payload
termination_by v => sizeOf v

def tEncList : List Val → List Nat
  | [] => []
  | v :: vs => tEnc v ++ tEncList vs
termination_by vs => sizeOf vs

def tEncFields : List (List Nat × Val) → List Nat
  | [] => []
  | (_, v) :: fs => tEnc v ++ tEncFields fs
termination_by fs => sizeOf fs

end

/-! ## Helper: the transient channel appends raw bytes only -/

theorem tStoreVal_eq : ∀ v b, tStoreVal v b = b ++ tEnc v := by
  apply tStoreVal.induct (fun v b => tStoreVal v b = b ++ tEnc v)
    (fun fs b => tStoreFields fs b = b ++ tEncFields fs)
    (fun vs b => tStoreList vs b = b ++ tEncList vs) <;>
    intros <;>
    simp_all [tStoreVal, tStoreList, tStoreFields, tEnc, tEncList, tEncFields,
      ← List.append_assoc,
      TransientWriteSavestate.store_raw, TransientWriteSavestate.store_bytes,
      TransientWriteSavestate.store_array_len, TransientWriteSavestate.start_struct,
      TransientWriteSavestate.end_struct, TransientWriteSavestate.start_field]

/-- **C9**: on the transient write channel, `start_struct`, `end_struct` and
`start_field` always succeed and leave the buffer unchanged, so the
transient encoding of any value is just the concatenated raw value bytes:
a struct contributes exactly its fields' raw bytes in order, with no names,
terminators, counts, or directory offsets. -/
theorem transient_structural_noops_and_raw_encoding :
    (∀ buf : List Nat,
      TransientWriteSavestate.start_struct buf = .ok buf ∧
      TransientWriteSavestate.end_struct buf = .ok buf ∧
      ∀ ident, TransientWriteSavestate.start_field ident buf = .ok buf) ∧
    (∀ v buf, tStoreVal v buf = buf ++ tEnc v) ∧
    (∀ fs, tEnc (.structV fs) = tEncFields fs) ∧
    (∀ ident v fs, tEncFields ((ident, v) :: fs) = tEnc v ++ tEncFields fs) := by
  refine ⟨fun buf => ⟨rfl, rfl, fun _ => rfl⟩, tStoreVal_eq, fun fs => by simp [tEnc],
    fun ident v fs => by simp [tEncFields]⟩

/-- **C2**: on the persistent write channel, `start_struct` appends exactly
four placeholder bytes and pushes a frame remembering their position, and
`end_struct` pops the frame, backpatches those 4 bytes with the
little-endian buffer length at that moment (the absolute offset where the
directory begins), then appends one byte holding the field count followed
by each recorded field's name bytes, a `0x00` terminator, and its absolute
offset as little-endian `u32`, in declaration order. -/
theorem persistent_struct_layout (s : PersistentWriteSavestate)
    (h : s.save.length ≤ u32max) :
    s.start_struct = .ok { save := s.save ++ [0, 0, 0, 0],
                           structs := ⟨s.save.length, []⟩ :: s.structs } ∧
    (∀ f rest, s.structs = f :: rest → f.fields.length ≤ 255 →
      s.end_struct = .ok { save := setBytes s.save f.start_pos (toLeBytes 4 s.save.length)
                             ++ [f.fields.length]
                             ++ PersistentWriteSavestate.entriesBytes f.fields,
                           structs := rest }) := by
  constructor
  · simp [PersistentWriteSavestate.start_struct, h]
  · intro f rest hs hf
    simp [PersistentWriteSavestate.end_struct, hs, h, hf]

/-- Witness for C2 on a concrete buffer and frame. -/
theorem persistent_struct_layout_witness :
    PersistentWriteSavestate.start_struct ⟨[0, 0, 0, 0, 9], [⟨0, [([120], 4)]⟩]⟩ =
      .ok ⟨[0, 0, 0, 0, 9, 0, 0, 0, 0], [⟨5, []⟩, ⟨0, [([120], 4)]⟩]⟩ ∧
    PersistentWriteSavestate.end_struct ⟨[0, 0, 0, 0, 9], [⟨0, [([120], 4)]⟩]⟩ =
      .ok ⟨[5, 0, 0, 0, 9, 1, 120, 0, 4, 0, 0, 0], []⟩ := by
  have h := persistent_struct_layout ⟨[0, 0, 0, 0, 9], [⟨0, [([120], 4)]⟩]⟩ (by decide)
  refine ⟨by simpa using h.1, ?_⟩
  have h2 := h.2 ⟨0, [([120], 4)]⟩ [] rfl (by decide)
  simpa [setBytes, PersistentWriteSavestate.entriesBytes, toLeBytes] using h2

/-- **C8**: `end_struct` succeeds on a frame with exactly 255 recorded
fields and fails with `TooManyFields` on one with 256 — the one-byte count
is never silently truncated. -/
theorem end_struct_field_count_boundary (s : PersistentWriteSavestate)
    (f : WStructInfo) (rest : List WStructInfo)
    (h : s.save.length ≤ u32max) (hs : s.structs = f :: rest) :
    (f.fields.length = 255 → ∃ s', s.end_struct = .ok s') ∧
    (f.fields.length = 256 → s.end_struct = .error .TooManyFields) := by
  constructor
  · intro h255
    refine ⟨{ save := setBytes s.save f.start_pos (toLeBytes 4 s.save.length)
                ++ [f.fields.length] ++ PersistentWriteSavestate.entriesBytes f.fields,
              structs := rest }, ?_⟩
    simp [PersistentWriteSavestate.end_struct, hs, h, h255]
  · intro h256
    simp [PersistentWriteSavestate.end_struct, hs, h, h256]

/-- Witness for C8: a 255-field frame succeeds, a 256-field frame fails. -/
theorem end_struct_field_count_boundary_witness :
    (∃ s', PersistentWriteSavestate.end_struct
        ⟨[], [⟨0, List.replicate 255 ([1], 0)⟩]⟩ = .ok s') ∧
    PersistentWriteSavestate.end_struct ⟨[], [⟨0, List.replicate 256 ([1], 0)⟩]⟩ =
      .error .TooManyFields := by
  have h1 := end_struct_field_count_boundary ⟨[], [⟨0, List.replicate 255 ([1], 0)⟩]⟩
    ⟨0, List.replicate 255 ([1], 0)⟩ [] (by decide) rfl
  have h2 := end_struct_field_count_boundary ⟨[], [⟨0, List.replicate 256 ([1], 0)⟩]⟩
    ⟨0, List.replicate 256 ([1], 0)⟩ [] (by decide) rfl
  exact ⟨h1.1 (by simp only [List.length_replicate]), h2.2 (by simp only [List.length_replicate])⟩

/-! ## Helper lemmas about the persistent read primitives -/

namespace PersistentReadSavestate

theorem load_raw_eq_of_le {s : PersistentReadSavestate} {size : Nat}
    (h : s.pos + size ≤ s.save.length) :
    s.load_raw size =
      .ok (fromLeBytes ((s.save.drop s.pos).take size), { s with pos := s.pos + size }) := by
  simp [load_raw, readExact, Nat.not_lt.mpr h, h]

theorem load_raw_eq_of_gt {s : PersistentReadSavestate} {size : Nat}
    (h : s.pos + size > s.save.length) :
    s.load_raw size = .err .UnexpectedEof := by
  simp [load_raw, h]

theorem load_bytes_eq_of_le {s : PersistentReadSavestate} {len : Nat}
    (h : s.pos + len ≤ s.save.length) :
    s.load_bytes len = .ok ((s.save.drop s.pos).take len, { s with pos := s.pos + len }) := by
  simp [load_bytes, readExact, Nat.not_lt.mpr h, h]

theorem load_bytes_eq_of_gt {s : PersistentReadSavestate} {len : Nat}
    (h : s.pos + len > s.save.length) :
    s.load_bytes len = .err .UnexpectedEof := by
  simp [load_bytes, h]

/-- The directory parse loop, started in bounds, never leaves the slice and
fails only with `UnexpectedEof`. -/
theorem parseFields_safe (save : List Nat) :
    ∀ n p, p ≤ save.length →
      parseFields save n p ≠ .ub ∧ parseFields save n p ≠ .panic ∧
        ∀ e, parseFields save n p = .err e → e = .UnexpectedEof := by
  intro n
  induction n with
  | zero => intro p _; simp [parseFields]
  | succ n ih =>
    intro p hp
    rw [parseFields]
    simp only [Nat.not_lt.mpr hp, gt_iff_lt, if_false]
    set len := ((save.drop p).takeWhile (fun b => b ≠ 0)).length with hlen
    by_cases hEof : p + len + 1 + 4 > save.length
    · simp [hEof]
    · push_neg at hEof
      have hre : readExact save (p + len + 1) 4 =
          some ((save.drop (p + len + 1)).take 4) := by
        simp [readExact]; omega
      have ih' := ih (p + len + 1 + 4) (by omega)
      simp only [Nat.not_lt.mpr hEof, gt_iff_lt, if_false, hre]
      rcases hrec : parseFields save n (p + len + 1 + 4) with r | e | _ | _
      · simp
      · rw [hrec] at ih'; exact ⟨by simp, by simp, fun e' he' => by
          simp only [RRes.err.injEq] at he'; exact he' ▸ ih'.2.2 e rfl⟩
      · rw [hrec] at ih'; exact absurd rfl ih'.2.1
      · rw [hrec] at ih'; exact absurd rfl ih'.1

end PersistentReadSavestate

/-- **C4**: on the persistent read channel (over a slice of length at most
`u32::MAX`), every `load_raw`, `load_bytes` or `start_struct` whose access
would cross the end of the buffer fails with `UnexpectedEof` (those are the
only errors `load_raw`/`load_bytes`/`start_struct` produce), and no
operation ever performs an out-of-bounds access on the slice. -/
theorem persistent_read_bounds_safety (s : PersistentReadSavestate)
    (hlen : s.save.length ≤ u32max) :
    (∀ size, s.pos + size > s.save.length → s.load_raw size = .err .UnexpectedEof) ∧
    (∀ size, s.load_raw size ≠ .ub ∧ s.load_raw size ≠ .panic) ∧
    (∀ len, s.pos + len > s.save.length → s.load_bytes len = .err .UnexpectedEof) ∧
    (∀ len, s.load_bytes len ≠ .ub ∧ s.load_bytes len ≠ .panic) ∧
    (s.start_struct ≠ .ub ∧ s.start_struct ≠ .panic ∧
      ∀ e, s.start_struct = .err e → e = .UnexpectedEof) ∧
    (s.end_struct ≠ .ub) ∧
    (∀ ident, s.start_field ident ≠ .ub) := by
  refine ⟨fun size h => PersistentReadSavestate.load_raw_eq_of_gt h,
    fun size => ?_, fun len h => PersistentReadSavestate.load_bytes_eq_of_gt h,
    fun len => ?_, ?_, ?_, ?_⟩
  · by_cases h : s.pos + size ≤ s.save.length
    · simp [PersistentReadSavestate.load_raw_eq_of_le h]
    · have hgt : s.pos + size > s.save.length := by omega
      simp [PersistentReadSavestate.load_raw_eq_of_gt hgt]
  · by_cases h : s.pos + len ≤ s.save.length
    · simp [PersistentReadSavestate.load_bytes_eq_of_le h]
    · have hgt : s.pos + len > s.save.length := by omega
      simp [PersistentReadSavestate.load_bytes_eq_of_gt hgt]
  · rw [PersistentReadSavestate.start_struct]
    by_cases h4 : s.pos + 4 ≤ s.save.length
    · rw [PersistentReadSavestate.load_raw_eq_of_le h4]
      rcases hget : s.save[fromLeBytes ((s.save.drop s.pos).take 4)]? with _ | b
      · simp [hget]
      · have hb : fromLeBytes ((s.save.drop s.pos).take 4) < s.save.length := by
          by_contra hc
          rw [List.getElem?_eq_none (by omega)] at hget
          exact absurd hget (by simp)
        have hsafe := PersistentReadSavestate.parseFields_safe s.save b
          (fromLeBytes ((s.save.drop s.pos).take 4) + 1) (by omega)
        rcases hrec : PersistentReadSavestate.parseFields s.save b
            (fromLeBytes ((s.save.drop s.pos).take 4) + 1) with r | e | _ | _
        · simp [hget, hrec]
        · rw [hrec] at hsafe
          have he : e = ReadError.UnexpectedEof := hsafe.2.2 e rfl
          subst he
          refine ⟨by simp [hget, hrec], by simp [hget, hrec], ?_⟩
          intro e' he'
          simp [hget, hrec] at he'
          first
          | exact he'
          | exact he'.symm
        · rw [hrec] at hsafe; exact absurd rfl hsafe.2.1
        · rw [hrec] at hsafe; exact absurd rfl hsafe.1
    · have hgt : s.pos + 4 > s.save.length := by omega
      rw [PersistentReadSavestate.load_raw_eq_of_gt hgt]
      simp
  · rw [PersistentReadSavestate.end_struct]
    rcases s.structs with _ | ⟨f, rest⟩ <;> simp
  · intro ident
    rw [PersistentReadSavestate.start_field]
    rcases s.structs with _ | ⟨f, rest⟩
    · simp
    · rcases hscan : PersistentReadSavestate.scanLoop f.fields ident f.cur_field
        (f.fields.length + 1) f.cur_field with _ | _ | _ | _ <;> simp [hscan]

/-- Witness for C4 at a concrete state. -/
theorem persistent_read_bounds_safety_witness :
    ((⟨[1, 2], 1, []⟩ : PersistentReadSavestate).load_raw 4 = .err .UnexpectedEof) ∧
    ((⟨[1, 2], 1, []⟩ : PersistentReadSavestate).start_struct ≠ .ub) := by
  have h := persistent_read_bounds_safety ⟨[1, 2], 1, []⟩ (by decide)
  exact ⟨h.1 4 (by decide), h.2.2.2.2.1.1⟩

/-! ## C7: enum discriminant width -/

theorem le_nextPow2 (n : Nat) : n ≤ nextPow2 n := by
  rw [nextPow2]
  by_cases h : n ≤ 1
  · simpa [h] using h
  · simp only [h, if_false]
    have h1 : n - 1 ≠ 0 := by omega
    rw [bitLen, if_neg h1]
    have := (Nat.log2_lt h1).mp (Nat.lt_succ_self (n - 1).log2)
    omega

theorem nextPow2_le_pow {n k : Nat} (h : n ≤ 2 ^ k) : nextPow2 n ≤ 2 ^ k := by
  rw [nextPow2]
  by_cases h1 : n ≤ 1
  · simp [h1, Nat.one_le_two_pow]
  · simp only [h1, if_false]
    have hne : n - 1 ≠ 0 := by omega
    rw [bitLen, if_neg hne]
    refine Nat.pow_le_pow_right (by norm_num) ?_
    have : (n - 1).log2 < k := (Nat.log2_lt hne).mpr (by omega)
    omega

theorem nextPow2_pow (n : Nat) : ∃ k, nextPow2 n = 2 ^ k := by
  rw [nextPow2]
  by_cases h : n ≤ 1
  · exact ⟨0, by simp [h]⟩
  · exact ⟨bitLen (n - 1), by simp [h]⟩

/-- The discriminant width the specification claims (reference definition
from the spec's words): the smallest power of two at least 8 and at least
`ceil(log2 count)`; for `count ≥ 1`, `ceil(log2 count) = bitLen (count - 1)`. -/
def claimDiscrBits (count : Nat) : Nat := max (nextPow2 (bitLen (count - 1))) 8

/-- **C7 counterexample**: for an enum with 256 variants the derive macro
computes a 16-bit discriminant (`u16`), not the 8-bit one the claim's
formula (`claimDiscrBits`) yields — the claim's "256 variants uses a u8
discriminant" is false. -/
theorem discr_width_256_counterexample :
    discrBits 256 = 16 ∧ claimDiscrBits 256 = 8 ∧ discrBits 256 ≠ claimDiscrBits 256 := by
  refine ⟨?_, ?_, ?_⟩ <;> simp [discrBits, claimDiscrBits, nextPow2, bitLen, Nat.log2]

/-- **C7 (amended)**: the stored discriminant width in bits is the smallest
power of two that is at least 8 and at least the bit length of
`variant_count` itself (`floor(log2 count) + 1`, not `ceil(log2 count)`);
in particular an enum with 256 variants uses a `u16` discriminant. -/
theorem discr_width_least (count : Nat) (h0 : 0 < count) (h1 : count ≤ u32max) :
    IsLeast {w | (∃ k, w = 2 ^ k) ∧ 8 ≤ w ∧ bitLen count ≤ w} (discrBits count) ∧
    discrBits 256 = 16 := by
  constructor
  · constructor
    · refine ⟨?_, le_max_right _ _, le_trans (le_nextPow2 _) (le_max_left _ _)⟩
      obtain ⟨j, hj⟩ := nextPow2_pow (bitLen count)
      rcases le_total (nextPow2 (bitLen count)) 8 with hle | hge
      · exact ⟨3, by rw [discrBits, Nat.max_eq_right hle]; norm_num⟩
      · exact ⟨j, by rw [discrBits, Nat.max_eq_left hge, hj]⟩
    · rintro w ⟨⟨k, rfl⟩, h8, hbl⟩
      exact Nat.max_le.mpr ⟨nextPow2_le_pow hbl, h8⟩
  · simp [discrBits, nextPow2, bitLen, Nat.log2]

/-- Witness for the amended C7 at `count = 5` (a `u8` discriminant). -/
theorem discr_width_least_witness :
    IsLeast {w | (∃ k, w = 2 ^ k) ∧ 8 ≤ w ∧ bitLen 5 ≤ w} (discrBits 5) ∧
    discrBits 256 = 16 :=
  discr_width_least 5 (by decide) (by decide)

/-! ## C10: `usize` is stored as a 4-byte `u32` -/

/-- **C10**: on both channels `usize` is stored through `as u32`, i.e. as
the 4 little-endian bytes of `v % 2^32` (which are exactly the low 4 bytes
of `v`); loading them back yields `v % 2^32`, so for `v > u32::MAX` the
round trip does not return `v`. -/
theorem usize_stored_mod_u32 (v : Nat) :
    storeVal (.usizeV v) ⟨[], []⟩ = .ok ⟨toLeBytes 4 (v % 2 ^ 32), []⟩ ∧
    tStoreVal (.usizeV v) [] = toLeBytes 4 (v % 2 ^ 32) ∧
    toLeBytes 4 (v % 2 ^ 32) = toLeBytes 4 v ∧
    loadVal .usizeT ⟨toLeBytes 4 (v % 2 ^ 32), 0, []⟩ =
      .ok (.usizeV (v % 2 ^ 32), ⟨toLeBytes 4 (v % 2 ^ 32), 4, []⟩) ∧
    (v > u32max → v % 2 ^ 32 ≠ v) := by
  have h2 : (256 : Nat) ^ 4 = 2 ^ 32 := by norm_num
  refine ⟨?_, ?_, ?_, ?_, ?_⟩
  · simp [storeVal, PersistentWriteSavestate.store_raw]
  · simp [tStoreVal, TransientWriteSavestate.store_raw]
  · rw [← h2, toLeBytes_mod]
  · have h4 : (0 : Nat) + 4 ≤ (toLeBytes 4 (v % 2 ^ 32)).length := by
      rw [toLeBytes_length]
    rw [loadVal, PersistentReadSavestate.load_raw_eq_of_le h4]
    simp [List.take_of_length_le, toLeBytes_length]
    rw [fromLeBytes_toLeBytes]
    have h256 : (256 : Nat) ^ 4 = 4294967296 := by norm_num
    rw [h256]
    omega
  · intro hv
    have : (2 : Nat) ^ 32 = 4294967296 := by norm_num
    have hm := Nat.mod_lt v (show 0 < 2 ^ 32 by norm_num)
    simp only [u32max, this] at hv hm ⊢
    omega

/-- Witness for C10 at `v = 2^32`: the round trip returns 0, not `2^32`. -/
theorem usize_stored_mod_u32_witness :
    storeVal (.usizeV (2 ^ 32)) ⟨[], []⟩ = .ok ⟨[0, 0, 0, 0], []⟩ ∧
    loadVal .usizeT ⟨[0, 0, 0, 0], 0, []⟩ = .ok (.usizeV 0, ⟨[0, 0, 0, 0], 4, []⟩) ∧
    (2 ^ 32 : Nat) % 2 ^ 32 ≠ 2 ^ 32 := by
  have h := usize_stored_mod_u32 (2 ^ 32)
  refine ⟨?_, ?_, h.2.2.2.2 (by norm_num [u32max])⟩
  · simpa [Nat.mod_self, toLeBytes] using h.1
  · simpa [Nat.mod_self, toLeBytes] using h.2.2.2.1

theorem fieldOffs_length : ∀ (fs : List (List Nat × Val)) (b : Nat),
    (fieldOffs fs b).length = fs.length := by
  intro fs
  induction fs with
  | nil => intro b; simp [fieldOffs]
  | cons f fs ih => intro b; rcases f with ⟨n, v⟩; simp [fieldOffs, ih]

theorem setBytes_append (a d c bs : List Nat) (h : d.length = bs.length) :
    setBytes (a ++ d ++ c) a.length bs = a ++ bs ++ c := by
  have h1 : (a ++ d ++ c).take a.length = a := by
    rw [List.append_assoc, List.take_left]
  have h2 : (a ++ d ++ c).drop (a.length + bs.length) = c := by
    rw [← h, show a.length + d.length = (a ++ d).length by simp, List.drop_left]
  rw [setBytes, h1, h2]

theorem storeVal_spec :
    ∀ t v, rtWf t v = true →
      ∀ s : PersistentWriteSavestate,
        s.save.length + (encVal v s.save.length).length ≤ 2 ^ 32 →
        storeVal v s = .ok ⟨s.save ++ encVal v s.save.length, s.structs⟩ := by
  apply rtWf.induct
    (fun t v => rtWf t v = true →
      ∀ s : PersistentWriteSavestate,
        s.save.length + (encVal v s.save.length).length ≤ 2 ^ 32 →
        storeVal v s = .ok ⟨s.save ++ encVal v s.save.length, s.structs⟩)
    (fun fts fvs => rtWfFields fts fvs = true →
      ∀ (s : PersistentWriteSavestate) f rest, s.structs = f :: rest →
        s.save.length + (encFields fvs s.save.length).length + 1 ≤ 2 ^ 32 →
        storeFields fvs s = .ok ⟨s.save ++ encFields fvs s.save.length,
          { f with fields := f.fields ++ fieldOffs fvs s.save.length } :: rest⟩)
    (fun ts vs => rtWfZip ts vs = true →
      ∀ s : PersistentWriteSavestate,
        s.save.length + (encList vs s.save.length).length ≤ 2 ^ 32 →
        storeList vs s = .ok ⟨s.save ++ encList vs s.save.length, s.structs⟩)
    (fun t vs => rtWfAll t vs = true →
      ∀ s : PersistentWriteSavestate,
        s.save.length + (encList vs s.save.length).length ≤ 2 ^ 32 →
        storeList vs s = .ok ⟨s.save ++ encList vs s.save.length, s.structs⟩)
  case case1 =>
    intro w w' v _ s _
    simp [storeVal, encVal, PersistentWriteSavestate.store_raw]
  case case2 =>
    intro w w' v _ s _
    simp [storeVal, encVal, PersistentWriteSavestate.store_raw]
  case case3 =>
    intro v _ s _
    simp [storeVal, encVal, PersistentWriteSavestate.store_raw]
  case case4 =>
    intro v _ s _
    simp [storeVal, encVal, PersistentWriteSavestate.store_raw]
  case case5 =>
    intro bits _ s _
    simp [storeVal, encVal, PersistentWriteSavestate.store_raw]
  case case6 =>
    intro bits _ s _
    simp [storeVal, encVal, PersistentWriteSavestate.store_raw]
  case case7 =>
    intro b _ s _
    simp [storeVal, encVal, PersistentWriteSavestate.store_raw]
  case case8 =>
    intro _ s _
    simp [storeVal, encVal]
  case case9 =>
    intro len bs _ s _
    simp [storeVal, encVal, PersistentWriteSavestate.store_bytes]
  case case10 =>
    intro t vs ih hwf s hsz
    simp only [rtWf, Bool.and_eq_true, decide_eq_true_eq] at hwf
    obtain ⟨hlen, hall⟩ := hwf
    have hsl : PersistentWriteSavestate.store_array_len vs.length s =
        .ok (PersistentWriteSavestate.store_raw 4 vs.length s) := by
      rw [PersistentWriteSavestate.store_array_len, if_pos hlen]
    have ih' := ih hall (PersistentWriteSavestate.store_raw 4 vs.length s) (by
      simp only [encVal, List.length_append, toLeBytes_length,
        PersistentWriteSavestate.store_raw] at hsz ⊢
      omega)
    simp only [storeVal, hsl, ih']
    simp [PersistentWriteSavestate.store_raw, encVal, toLeBytes_length]
  case case11 =>
    intro t len vs ih hwf s hsz
    simp only [rtWf, Bool.and_eq_true] at hwf
    rw [storeVal]
    simpa [encVal] using ih hwf.2 s (by simpa [encVal] using hsz)
  case case12 =>
    intro t _ s _
    simp [storeVal, encVal, PersistentWriteSavestate.store_raw]
  case case13 =>
    intro t v ih hwf s hsz
    simp only [rtWf] at hwf
    rw [storeVal]
    have ih' := ih hwf (PersistentWriteSavestate.store_raw 1 1 s) (by
      simp only [encVal, List.length_append, toLeBytes_length,
        PersistentWriteSavestate.store_raw] at hsz ⊢
      omega)
    rw [ih']
    simp [PersistentWriteSavestate.store_raw, encVal, toLeBytes_length, toLeBytes]
  case case14 =>
    intro t v ih hwf s hsz
    simp only [rtWf] at hwf
    rw [storeVal]
    simpa [encVal] using ih hwf s (by simpa [encVal] using hsz)
  case case15 =>
    intro t v ih hwf s hsz
    simp only [rtWf] at hwf
    rw [storeVal]
    simpa [encVal] using ih hwf s (by simpa [encVal] using hsz)
  case case16 =>
    intro ts vs ih hwf s hsz
    simp only [rtWf] at hwf
    rw [storeVal]
    simpa [encVal] using ih hwf s (by simpa [encVal] using hsz)
  case case17 =>
    intro fts fvs ih hwf s hsz
    simp only [rtWf, Bool.and_eq_true, decide_eq_true_eq] at hwf
    obtain ⟨h255, hfields⟩ := hwf
    obtain ⟨save, structs⟩ := s
    simp only [encVal, List.length_append, List.length_cons, List.length_nil,
      toLeBytes_length] at hsz
    norm_num at hsz
    have hle : save.length ≤ u32max := by unfold u32max; omega
    have hss : PersistentWriteSavestate.start_struct ⟨save, structs⟩ =
        .ok ⟨save ++ [0, 0, 0, 0], ⟨save.length, []⟩ :: structs⟩ := by
      rw [PersistentWriteSavestate.start_struct]
      simp [hle]
    have hL : (save ++ [0, 0, 0, 0]).length = save.length + 4 := by
      simp
    have ihf := ih hfields ⟨save ++ [0, 0, 0, 0], ⟨save.length, []⟩ :: structs⟩
      ⟨save.length, []⟩ structs rfl (by rw [hL]; omega)
    rw [hL] at ihf
    simp only [storeVal, hss, ihf]
    have hL2 : (save ++ [0, 0, 0, 0] ++ encFields fvs (save.length + 4)).length =
        save.length + 4 + (encFields fvs (save.length + 4)).length := by
      simp [List.length_append]
      omega
    have hlen2 : (save ++ [0, 0, 0, 0] ++ encFields fvs (save.length + 4)).length ≤ u32max := by
      rw [hL2]; unfold u32max; omega
    have hcnt : (([] : List (List Nat × Nat)) ++ fieldOffs fvs (save.length + 4)).length ≤ 255 := by
      simpa [fieldOffs_length] using h255
    have hsb : setBytes (save ++ [0, 0, 0, 0] ++ encFields fvs (save.length + 4))
        save.length (toLeBytes 4 (save.length + 4 + (encFields fvs (save.length + 4)).length)) =
        save ++ toLeBytes 4 (save.length + 4 + (encFields fvs (save.length + 4)).length) ++
          encFields fvs (save.length + 4) :=
      setBytes_append save [0, 0, 0, 0] (encFields fvs (save.length + 4))
        (toLeBytes 4 (save.length + 4 + (encFields fvs (save.length + 4)).length))
        (by simp [toLeBytes_length])
    have hlen2' : save.length + 4 + (encFields fvs (save.length + 4)).length ≤ u32max := by
      rw [← hL2]; exact hlen2
    rw [PersistentWriteSavestate.end_struct]
    simp only [hL2, List.nil_append, fieldOffs_length]
    rw [if_pos hlen2', if_pos h255, hsb]
    simp [encVal, List.append_assoc]
  case case18 =>
    intro vts count idx payload ih hwf s hsz
    simp only [rtWf, Bool.and_eq_true, beq_iff_eq] at hwf
    obtain ⟨hcount, hmatch⟩ := hwf
    rcases hg : vts.get? idx with _ | t <;> rw [hg] at hmatch
    · simp at hmatch
    · rw [storeVal]
      have ih' := ih t hmatch (PersistentWriteSavestate.store_raw (discrBytes count) idx s) (by
        simp only [encVal, List.length_append, toLeBytes_length,
          PersistentWriteSavestate.store_raw] at hsz ⊢
        omega)
      rw [ih']
      simp [PersistentWriteSavestate.store_raw, encVal, toLeBytes_length]
  case case19 =>
    intro x y h1 h2 h3 h4 h5 h6 h7 h8 h9 h10 h11 h12 h13 h14 h15 h16 h17 h18 hwf
    exfalso
    rw [rtWf.eq_def] at hwf
    split at hwf <;>
      first
      | exact h1 _ _ _ rfl rfl
      | exact h2 _ _ _ rfl rfl
      | exact h3 _ rfl rfl
      | exact h4 _ rfl rfl
      | exact h5 _ rfl rfl
      | exact h6 _ rfl rfl
      | exact h7 _ rfl rfl
      | exact h8 rfl rfl
      | exact h9 _ _ rfl rfl
      | exact h10 _ _ rfl rfl
      | exact h11 _ _ _ rfl rfl
      | exact h12 _ rfl rfl
      | exact h13 _ _ rfl rfl
      | exact h14 _ _ rfl rfl
      | exact h15 _ _ rfl rfl
      | exact h16 _ _ rfl rfl
      | exact h17 _ _ rfl rfl
      | exact h18 _ _ _ _ rfl rfl
      | simp at hwf
  case case20 =>
    intro _ s f rest hs _
    obtain ⟨save, structs⟩ := s
    simp only at hs
    subst hs
    simp [storeFields, encFields, fieldOffs]
  case case21 =>
    intro n1 t fts n2 v fvs ihv ihf hwf s f rest hs hsz
    obtain ⟨save, structs⟩ := s
    simp only at hs
    subst hs
    simp only [rtWfFields, Bool.and_eq_true] at hwf
    obtain ⟨⟨⟨hname, hnz⟩, hv⟩, hf⟩ := hwf
    simp only [encFields, List.length_append] at hsz
    have hle : save.length ≤ u32max := by unfold u32max; omega
    have hsf : PersistentWriteSavestate.start_field n2 ⟨save, f :: rest⟩ =
        .ok ⟨save, { f with fields := f.fields ++ [(n2, save.length)] } :: rest⟩ := by
      rw [PersistentWriteSavestate.start_field]
      simp [hle]
    have ihv' := ihv hv ⟨save, { f with fields := f.fields ++ [(n2, save.length)] } :: rest⟩
      (by simp only; omega)
    have hL : (save ++ encVal v save.length).length =
        save.length + (encVal v save.length).length := by
      simp
    have ihf' := ihf hf ⟨save ++ encVal v save.length,
        { f with fields := f.fields ++ [(n2, save.length)] } :: rest⟩
      { f with fields := f.fields ++ [(n2, save.length)] } rest rfl (by rw [hL]; omega)
    rw [hL] at ihf'
    simp only [storeFields, hsf, ihv', ihf']
    simp [encFields, fieldOffs, List.append_assoc]
  case case22 =>
    intro x y h1 h2 hwf
    exfalso
    rw [rtWfFields.eq_def] at hwf
    split at hwf <;>
      first
      | exact h1 rfl rfl
      | exact h2 _ _ _ _ _ _ rfl rfl
      | simp at hwf
  case case23 =>
    intro _ s _
    simp [storeList, encList]
  case case24 =>
    intro t ts v vs ihv ihs hwf s hsz
    simp only [rtWfZip, Bool.and_eq_true] at hwf
    obtain ⟨hv, hs'⟩ := hwf
    simp only [encList, List.length_append] at hsz
    have hL : (s.save ++ encVal v s.save.length).length =
        s.save.length + (encVal v s.save.length).length := by simp
    have ihv' := ihv hv s (by omega)
    have ihs' := ihs hs' ⟨s.save ++ encVal v s.save.length, s.structs⟩
      (by dsimp only; rw [hL]; omega)
    dsimp only at ihs'
    rw [hL] at ihs'
    simp only [storeList, ihv', ihs']
    simp [encList, List.append_assoc]
  case case25 =>
    intro x y h1 h2 hwf
    exfalso
    rw [rtWfZip.eq_def] at hwf
    split at hwf <;>
      first
      | exact h1 rfl rfl
      | exact h2 _ _ _ _ rfl rfl
      | simp at hwf
  case case26 =>
    intro t _ s _
    simp [storeList, encList]
  case case27 =>
    intro t v vs ihv ihs hwf s hsz
    simp only [rtWfAll, Bool.and_eq_true] at hwf
    obtain ⟨hv, hs'⟩ := hwf
    simp only [encList, List.length_append] at hsz
    have hL : (s.save ++ encVal v s.save.length).length =
        s.save.length + (encVal v s.save.length).length := by simp
    have ihv' := ihv hv s (by omega)
    have ihs' := ihs hs' ⟨s.save ++ encVal v s.save.length, s.structs⟩
      (by dsimp only; rw [hL]; omega)
    dsimp only at ihs'
    rw [hL] at ihs'
    simp only [storeList, ihv', ihs']
    simp [encList, List.append_assoc]

/-! ## Byte-slice reasoning for the load proofs -/

/-- `bs` are exactly the bytes of `save` at positions `[p, p + bs.length)`. -/
def hasBytesAt (save : List Nat) (p : Nat) (bs : List Nat) : Prop :=
  p + bs.length ≤ save.length ∧ (save.drop p).take bs.length = bs

theorem hasBytesAt_split {save : List Nat} {p : Nat} {a b : List Nat}
    (h : hasBytesAt save p (a ++ b)) :
    hasBytesAt save p a ∧ hasBytesAt save (p + a.length) b := by
  obtain ⟨hlen, htake⟩ := h
  rw [List.length_append] at hlen
  refine ⟨⟨by omega, ?_⟩, ⟨by omega, ?_⟩⟩
  · have h1 := congrArg (List.take a.length) htake
    rw [List.take_take, Nat.min_def, if_pos (by simp), List.take_append_eq_append_take,
      List.take_of_length_le (le_refl a.length), Nat.sub_self, List.take_zero,
      List.append_nil] at h1
    exact h1
  · have h2 := congrArg (List.drop a.length) htake
    rw [List.drop_take, List.drop_append_eq_append_drop,
      List.drop_of_length_le (le_refl a.length), Nat.sub_self, List.drop_zero,
      List.nil_append, List.drop_drop] at h2
    have e1 : (a ++ b).length - a.length = b.length := by simp
    rw [e1] at h2
    exact h2

theorem hasBytesAt_getElem {save : List Nat} {p : Nat} {b : Nat} {l : List Nat}
    (h : hasBytesAt save p (b :: l)) : save[p]? = some b := by
  obtain ⟨hlen, htake⟩ := h
  simp only [List.length_cons] at hlen
  have hp : p < save.length := by omega
  rcases hq : save.drop p with _ | ⟨x, xs⟩
  · exfalso
    have hd : (save.drop p).length = 0 := by rw [hq]; rfl
    rw [List.length_drop] at hd
    omega
  · rw [hq] at htake
    simp only [List.length_cons, List.take_succ_cons, List.cons.injEq] at htake
    have : save[p]? = some x := by
      have := List.getElem?_drop save p 0
      rw [hq] at this
      simpa using this.symm
    rw [this, htake.1]

namespace PersistentReadSavestate

theorem load_raw_of_bytes {s : PersistentReadSavestate} {bs : List Nat} {k : Nat}
    (h : hasBytesAt s.save s.pos bs) (hk : bs.length = k) :
    s.load_raw k = .ok (fromLeBytes bs, { s with pos := s.pos + k }) := by
  obtain ⟨hlen, htake⟩ := h
  rw [load_raw_eq_of_le (by omega)]
  rw [← hk, htake]

theorem load_bytes_of_bytes {s : PersistentReadSavestate} {bs : List Nat} {k : Nat}
    (h : hasBytesAt s.save s.pos bs) (hk : bs.length = k) :
    s.load_bytes k = .ok (bs, { s with pos := s.pos + k }) := by
  obtain ⟨hlen, htake⟩ := h
  rw [load_bytes_eq_of_le (by omega)]
  rw [← hk, htake]

end PersistentReadSavestate

/-- The name scanner in the directory parser stops exactly at the `0x00`
terminator when the name itself contains no zero byte. -/
theorem takeWhile_name_length (n l : List Nat) (h : ∀ b ∈ n, b ≠ 0) :
    ((n ++ 0 :: l).takeWhile (fun b => b ≠ 0)).length = n.length := by
  induction n with
  | nil => simp [List.takeWhile]
  | cons a n ih =>
    have ha : a ≠ 0 := h a (by simp)
    simp only [List.cons_append, List.takeWhile_cons, decide_eq_true_eq]
    rw [if_pos ha]
    simp only [List.length_cons]
    rw [ih (fun b hb => h b (by simp [hb]))]

theorem parseFields_spec (save : List Nat) :
    ∀ (ents : List (List Nat × Nat)) (p : Nat),
      hasBytesAt save p (PersistentWriteSavestate.entriesBytes ents) →
      (∀ e ∈ ents, (∀ b ∈ e.1, b ≠ 0) ∧ e.2 < 2 ^ 32) →
      PersistentReadSavestate.parseFields save ents.length p =
        .ok (ents, p + (PersistentWriteSavestate.entriesBytes ents).length) := by
  intro ents
  induction ents with
  | nil => intro p _ _; simp [PersistentReadSavestate.parseFields,
      PersistentWriteSavestate.entriesBytes]
  | cons e rest ih =>
    intro p hbytes hwf
    rcases e with ⟨n, off⟩
    simp only [PersistentWriteSavestate.entriesBytes] at hbytes
    have hn0 : ∀ b ∈ n, b ≠ 0 := (hwf (n, off) (by simp)).1
    have hoff : off < 2 ^ 32 := (hwf (n, off) (by simp)).2
    -- reassociate the entry bytes as (n ++ 0 :: (toLe off ++ rest-bytes))
    have hre : n ++ [0] ++ toLeBytes 4 off ++
        PersistentWriteSavestate.entriesBytes rest =
        n ++ 0 :: (toLeBytes 4 off ++ PersistentWriteSavestate.entriesBytes rest) := by
      simp [List.append_assoc]
    rw [hre] at hbytes
    obtain ⟨hlen, htake⟩ := hbytes
    have hplen : p ≤ save.length := by
      simp only [List.length_cons, List.length_append] at hlen
      omega
    -- the drop starts with exactly these bytes
    have hdrop : (save.drop p).take (n ++ 0 ::
        (toLeBytes 4 off ++ PersistentWriteSavestate.entriesBytes rest)).length =
        n ++ 0 :: (toLeBytes 4 off ++ PersistentWriteSavestate.entriesBytes rest) := htake
    -- takeWhile over the full drop agrees with takeWhile over the prefix
    have htw : ((save.drop p).takeWhile (fun b => b ≠ 0)).length = n.length := by
      have hsplit : save.drop p = n ++ 0 ::
          (toLeBytes 4 off ++ PersistentWriteSavestate.entriesBytes rest) ++
          (save.drop p).drop (n ++ 0 ::
            (toLeBytes 4 off ++ PersistentWriteSavestate.entriesBytes rest)).length := by
        conv_lhs => rw [← List.take_append_drop ((n ++ 0 ::
          (toLeBytes 4 off ++ PersistentWriteSavestate.entriesBytes rest)).length)
          (save.drop p)]
        rw [htake]
      rw [hsplit]
      have : n ++ 0 :: (toLeBytes 4 off ++ PersistentWriteSavestate.entriesBytes rest) ++
          (save.drop p).drop (n ++ 0 ::
            (toLeBytes 4 off ++ PersistentWriteSavestate.entriesBytes rest)).length =
          n ++ 0 :: ((toLeBytes 4 off ++ PersistentWriteSavestate.entriesBytes rest) ++
          (save.drop p).drop (n ++ 0 ::
            (toLeBytes 4 off ++ PersistentWriteSavestate.entriesBytes rest)).length) := by
        simp [List.append_assoc]
      rw [this]
      exact takeWhile_name_length n _ hn0
    simp only [List.length_cons]
    rw [PersistentReadSavestate.parseFields]
    simp only [Nat.not_lt.mpr hplen, gt_iff_lt, if_false]
    rw [htw]
    -- identBytes = n
    have hident : (save.drop p).take n.length = n := by
      have h1 := (hasBytesAt_split (a := n)
        (b := 0 :: (toLeBytes 4 off ++ PersistentWriteSavestate.entriesBytes rest))
        ⟨hlen, htake⟩).1
      exact h1.2
    rw [hident]
    have hafter := (hasBytesAt_split (a := n)
      (b := 0 :: (toLeBytes 4 off ++ PersistentWriteSavestate.entriesBytes rest))
      ⟨hlen, htake⟩).2
    have hafter' : hasBytesAt save (p + n.length)
        ([0] ++ (toLeBytes 4 off ++ PersistentWriteSavestate.entriesBytes rest)) := by
      simpa using hafter
    have hoffbytes := (hasBytesAt_split (a := [0])
      (b := toLeBytes 4 off ++ PersistentWriteSavestate.entriesBytes rest) hafter').2
    have hoffbytes' : hasBytesAt save (p + n.length + 1)
        (toLeBytes 4 off ++ PersistentWriteSavestate.entriesBytes rest) := by
      simpa using hoffbytes
    obtain ⟨hoffb, hrestb0⟩ := hasBytesAt_split
      (a := toLeBytes 4 off) (b := PersistentWriteSavestate.entriesBytes rest) hoffbytes'
    have hrestb : hasBytesAt save (p + n.length + 1 + 4)
        (PersistentWriteSavestate.entriesBytes rest) := by
      simpa [toLeBytes_length] using hrestb0
    have hbound : ¬ (p + n.length + 1 + 4 > save.length) := by
      obtain ⟨hl, _⟩ := hrestb
      omega
    simp only [hbound, if_false]
    have hread : readExact save (p + n.length + 1) 4 =
        some ((save.drop (p + n.length + 1)).take 4) := by
      rw [readExact, if_pos (by omega)]
    rw [hread]
    have htake4 : (save.drop (p + n.length + 1)).take 4 = toLeBytes 4 off := by
      obtain ⟨hl2, ht2⟩ := hoffb
      rw [toLeBytes_length] at ht2
      exact ht2
    rw [htake4]
    have hrec := ih (p + n.length + 1 + 4) hrestb (fun e he => hwf e (by simp [he]))
    rw [hrec]
    dsimp only
    rw [fromLeBytes_toLeBytes_of_lt (by
      have h256 : (256 : Nat) ^ 4 = 2 ^ 32 := by norm_num
      rw [h256]; exact hoff)]
    simp only [PersistentWriteSavestate.entriesBytes, List.length_append, List.length_cons,
      List.length_nil, toLeBytes_length, RRes.ok.injEq, Prod.mk.injEq, List.cons.injEq,
      true_and, and_true]
    omega

/-- When the remembered index already points at the requested name, the
scan succeeds on its first iteration (the writer/reader in-order case). -/
theorem scanLoop_here {fields : List (List Nat × Nat)} {ident : List Nat}
    {start off fuel : Nat} (hget : fields.get? start = some (ident, off)) :
    PersistentReadSavestate.scanLoop fields ident start (fuel + 1) start =
      .found (if start + 1 = fields.length then 0 else start + 1) off := by
  rw [PersistentReadSavestate.scanLoop]
  rw [List.get?_eq_getElem?] at hget
  simp only [List.get?_eq_getElem?, hget]
  simp

theorem start_field_here {s : PersistentReadSavestate} {f : RStructInfo}
    {rest : List RStructInfo} {ident : List Nat} {off : Nat}
    (hs : s.structs = f :: rest)
    (hget : f.fields.get? f.cur_field = some (ident, off)) :
    s.start_field ident = .ok ({ s with
      pos := off
      structs := ({ f with cur_field :=
        (if f.cur_field + 1 = f.fields.length then 0 else f.cur_field + 1) } : RStructInfo) :: rest }) := by
  rw [PersistentReadSavestate.start_field, hs]
  dsimp only
  rw [scanLoop_here hget]

/-- The derive macro's discriminant match selects variant `d`. -/
theorem loadVariant_get :
    ∀ (vts : List Ty) (idx : Nat) (t : Ty) (s : PersistentReadSavestate),
      vts.get? idx = some t → loadVariant vts idx s = loadVal t s := by
  intro vts
  induction vts with
  | nil => intro idx t s h; simp at h
  | cons t0 ts ih =>
    intro idx t s h
    cases idx with
    | zero => simp at h; rw [loadVariant, h]
    | succ d =>
      rw [loadVariant]
      exact ih d t s h

/-- Sign round trip through a `w`-byte two's-complement store/load. -/
theorem natToInt_intToNat (w : Nat) (v : Int) (hw : 0 < w)
    (h1 : -((2 : Int) ^ (8 * w - 1)) ≤ v) (h2 : v < (2 : Int) ^ (8 * w - 1)) :
    natToInt w (intToNat w v) = v := by
  have hsplit : 8 * w = (8 * w - 1) + 1 := by omega
  have hB : (2 : Int) ^ (8 * w) = 2 ^ (8 * w - 1) * 2 := by
    conv_lhs => rw [hsplit]
    rw [pow_succ]
  have hA0 : (0 : Int) < 2 ^ (8 * w - 1) := by positivity
  have hcast : ((2 ^ (8 * w - 1) : Nat) : Int) = 2 ^ (8 * w - 1) := by push_cast; ring
  rcases le_or_lt 0 v with hv | hv
  · have hmod : v % 2 ^ (8 * w) = v := Int.emod_eq_of_lt hv (by omega)
    rw [intToNat, hmod, natToInt]
    rw [if_pos (by omega)]
    omega
  · have hmod : v % 2 ^ (8 * w) = v + 2 ^ (8 * w) := by
      have hself := Int.add_mul_emod_self_left (a := v) (b := 2 ^ (8 * w)) (c := 1)
      rw [Int.mul_one] at hself
      rw [← hself]
      exact Int.emod_eq_of_lt (by omega) (by omega)
    rw [intToNat, hmod, natToInt]
    rw [if_neg (by omega)]
    omega

theorem pow256 (w : Nat) : (256 : Nat) ^ w = 2 ^ (8 * w) := by
  rw [show (256 : Nat) = 2 ^ 8 by norm_num, ← pow_mul]

theorem fromLe_toLe {w v : Nat} (h : v < 2 ^ (8 * w)) :
    fromLeBytes (toLeBytes w v) = v :=
  fromLeBytes_toLeBytes_of_lt (by rw [pow256]; exact h)

theorem intToNat_lt (w : Nat) (v : Int) : intToNat w v < 2 ^ (8 * w) := by
  rw [intToNat]
  have h : (0 : Int) < 2 ^ (8 * w) := by positivity
  have h1 := Int.emod_nonneg v (ne_of_gt h)
  have h2 := Int.emod_lt_of_pos v h
  have hc : ((2 ^ (8 * w) : Nat) : Int) = 2 ^ (8 * w) := by push_cast; ring
  omega

theorem rawWidth_pos {w : Nat} (h : rawWidth w = true) : 0 < w := by
  rw [rawWidth] at h
  simp only [Bool.or_eq_true, beq_iff_eq] at h
  omega

theorem eight_dvd_discrBits (count : Nat) : 8 ∣ discrBits count := by
  obtain ⟨k, hk⟩ := nextPow2_pow (bitLen count)
  rw [discrBits, hk]
  rcases le_or_lt (2 ^ k) 8 with h | h
  · rw [Nat.max_eq_right h]
  · rw [Nat.max_eq_left (le_of_lt h)]
    have hk3 : 3 ≤ k := by
      by_contra hc
      push_neg at hc
      interval_cases k <;> omega
    have hd := pow_dvd_pow 2 hk3
    norm_num at hd
    exact hd

theorem discrBytes_mul (count : Nat) : 8 * discrBytes count = discrBits count :=
  Nat.mul_div_cancel' (eight_dvd_discrBits count)

theorem lt_discrBits_pow {count : Nat} (h : 0 < count) : count < 2 ^ discrBits count := by
  have h1 : bitLen count ≤ discrBits count :=
    le_trans (le_nextPow2 _) (le_max_left _ _)
  have h2 : count < 2 ^ bitLen count := by
    rw [bitLen, if_neg (by omega)]
    exact (Nat.log2_lt (by omega)).mp (Nat.lt_succ_self _)
  exact lt_of_lt_of_le h2 (Nat.pow_le_pow_right (by norm_num) h1)

theorem fieldOffs_mem_bounds :
    ∀ (fs : List (List Nat × Val)) (b : Nat) (e : List Nat × Nat),
      e ∈ fieldOffs fs b →
      (∃ v, (e.1, v) ∈ fs) ∧ b ≤ e.2 ∧ e.2 ≤ b + (encFields fs b).length := by
  intro fs
  induction fs with
  | nil => intro b e he; simp [fieldOffs] at he
  | cons f fs ih =>
    intro b e he
    rcases f with ⟨n, v⟩
    rw [fieldOffs] at he
    rcases List.mem_cons.mp he with h | h
    · subst h
      exact ⟨⟨v, by simp⟩, le_refl _, by simp [encFields]⟩
    · obtain ⟨⟨v', hv'⟩, hle, hub⟩ := ih (b + (encVal v b).length) e h
      refine ⟨⟨v', by simp [hv']⟩, by omega, ?_⟩
      simp only [encFields, List.length_append]
      omega

theorem rtWfFields_no_zero :
    ∀ (fts : List (List Nat × Ty)) (fvs : List (List Nat × Val)),
      rtWfFields fts fvs = true → ∀ e ∈ fvs, ∀ b ∈ e.1, b ≠ 0 := by
  intro fts
  induction fts with
  | nil =>
    intro fvs h e he
    cases fvs with
    | nil => simp at he
    | cons f fs => rw [rtWfFields.eq_def] at h; simp at h
  | cons ft fts ih =>
    intro fvs h e he
    cases fvs with
    | nil => simp at he
    | cons f fs =>
      rcases ft with ⟨n1, t⟩
      rcases f with ⟨n2, v⟩
      simp only [rtWfFields, Bool.and_eq_true, beq_iff_eq, Bool.not_eq_true'] at h
      obtain ⟨⟨⟨hname, hnz⟩, _⟩, hrest⟩ := h
      rcases List.mem_cons.mp he with hh | hh
      · subst hh
        intro b hb hb0
        subst hname
        subst hb0
        have hmem : n1.contains 0 = true :=
          List.contains_iff_exists_mem_beq.mpr ⟨0, hb, by simp⟩
        rw [hmem] at hnz
        exact absurd hnz (by simp)
      · exact ih fs hrest e hh

theorem loadRaw_state (save : List Nat) (pos : Nat) (structs : List RStructInfo)
    (bs : List Nat) (k : Nat) (h : hasBytesAt save pos bs) (hk : bs.length = k) :
    PersistentReadSavestate.load_raw k ⟨save, pos, structs⟩ =
      .ok (fromLeBytes bs, ⟨save, pos + k, structs⟩) :=
  PersistentReadSavestate.load_raw_of_bytes h hk

theorem loadBytes_state (save : List Nat) (pos : Nat) (structs : List RStructInfo)
    (bs : List Nat) (k : Nat) (h : hasBytesAt save pos bs) (hk : bs.length = k) :
    PersistentReadSavestate.load_bytes k ⟨save, pos, structs⟩ =
      .ok (bs, ⟨save, pos + k, structs⟩) :=
  PersistentReadSavestate.load_bytes_of_bytes h hk

theorem loadVal_spec :
    ∀ t v, rtWf t v = true →
      ∀ (save : List Nat) (pos : Nat) (structs : List RStructInfo),
        save.length ≤ u32max →
        hasBytesAt save pos (encVal v pos) →
        loadVal t ⟨save, pos, structs⟩ =
          .ok (v, ⟨save, pos + (encVal v pos).length, structs⟩) := by
  apply rtWf.induct
    (fun t v => rtWf t v = true →
      ∀ (save : List Nat) (pos : Nat) (structs : List RStructInfo),
        save.length ≤ u32max →
        hasBytesAt save pos (encVal v pos) →
        loadVal t ⟨save, pos, structs⟩ =
          .ok (v, ⟨save, pos + (encVal v pos).length, structs⟩))
    (fun fts fvs => rtWfFields fts fvs = true →
      ∀ (save : List Nat) (b : Nat) (pre : List (List Nat × Nat)) (endPos : Nat)
        (rest : List RStructInfo) (pos k : Nat),
        save.length ≤ u32max →
        hasBytesAt save b (encFields fvs b) →
        (k = pre.length ∨ fvs = []) →
        ∃ pos2 k2,
          loadFields fts ⟨save, pos, ⟨pre ++ fieldOffs fvs b, endPos, k⟩ :: rest⟩ =
            .ok (fvs, ⟨save, pos2, ⟨pre ++ fieldOffs fvs b, endPos, k2⟩ :: rest⟩))
    (fun ts vs => rtWfZip ts vs = true →
      ∀ (save : List Nat) (pos : Nat) (structs : List RStructInfo),
        save.length ≤ u32max →
        hasBytesAt save pos (encList vs pos) →
        loadList ts ⟨save, pos, structs⟩ =
          .ok (vs, ⟨save, pos + (encList vs pos).length, structs⟩))
    (fun t vs => rtWfAll t vs = true →
      ∀ (save : List Nat) (pos : Nat) (structs : List RStructInfo),
        save.length ≤ u32max →
        hasBytesAt save pos (encList vs pos) →
        loadRepeat t vs.length ⟨save, pos, structs⟩ =
          .ok (vs, ⟨save, pos + (encList vs pos).length, structs⟩))
  case case1 =>
    intro w w' v hwf save pos structs hsave hbytes
    simp only [rtWf, Bool.and_eq_true, beq_iff_eq, decide_eq_true_eq] at hwf
    obtain ⟨⟨hww, _⟩, hv⟩ := hwf
    subst hww
    simp only [encVal] at hbytes ⊢
    rw [loadVal, loadRaw_state save pos structs _ w hbytes (toLeBytes_length w v)]
    dsimp only
    rw [fromLe_toLe hv]
    simp [toLeBytes_length]
  case case2 =>
    intro w w' v hwf save pos structs hsave hbytes
    simp only [rtWf, Bool.and_eq_true, beq_iff_eq, decide_eq_true_eq] at hwf
    obtain ⟨⟨hww, hraw⟩, hv1, hv2⟩ := hwf
    subst hww
    simp only [encVal] at hbytes ⊢
    rw [loadVal, loadRaw_state save pos structs _ w hbytes (toLeBytes_length w _)]
    dsimp only
    rw [fromLe_toLe (intToNat_lt w v)]
    rw [natToInt_intToNat w v (rawWidth_pos hraw) hv1 hv2]
    simp [toLeBytes_length]
  case case3 =>
    intro v hwf save pos structs hsave hbytes
    simp only [rtWf, decide_eq_true_eq] at hwf
    simp only [encVal] at hbytes ⊢
    rw [loadVal, loadRaw_state save pos structs _ 4 hbytes (toLeBytes_length 4 _)]
    dsimp only
    rw [fromLe_toLe (by norm_num <;> omega)]
    rw [Nat.mod_eq_of_lt hwf]
    simp [toLeBytes_length]
  case case4 =>
    intro v hwf save pos structs hsave hbytes
    simp only [rtWf, decide_eq_true_eq] at hwf
    obtain ⟨hv1, hv2⟩ := hwf
    simp only [encVal] at hbytes ⊢
    rw [loadVal, loadRaw_state save pos structs _ 4 hbytes (toLeBytes_length 4 _)]
    dsimp only
    rw [fromLe_toLe (intToNat_lt 4 v)]
    rw [show natToInt 4 (intToNat 4 v) = v from
      natToInt_intToNat 4 v (by norm_num) (by norm_num; exact hv1) (by norm_num; exact hv2)]
    simp [toLeBytes_length]
  case case5 =>
    intro bits hwf save pos structs hsave hbytes
    simp only [rtWf, decide_eq_true_eq] at hwf
    simp only [encVal] at hbytes ⊢
    rw [loadVal, loadRaw_state save pos structs _ 4 hbytes (toLeBytes_length 4 _)]
    dsimp only
    rw [fromLe_toLe (by norm_num <;> omega)]
    simp [toLeBytes_length]
  case case6 =>
    intro bits hwf save pos structs hsave hbytes
    simp only [rtWf, decide_eq_true_eq] at hwf
    simp only [encVal] at hbytes ⊢
    rw [loadVal, loadRaw_state save pos structs _ 8 hbytes (toLeBytes_length 8 _)]
    dsimp only
    rw [fromLe_toLe (by norm_num <;> omega)]
    simp [toLeBytes_length]
  case case7 =>
    intro b hwf save pos structs hsave hbytes
    simp only [encVal] at hbytes ⊢
    rw [loadVal, loadRaw_state save pos structs _ 1 hbytes (toLeBytes_length 1 _)]
    dsimp only
    rw [fromLe_toLe (by cases b <;> norm_num)]
    cases b <;> simp [toLeBytes_length]
  case case8 =>
    intro hwf save pos structs hsave hbytes
    simp only [encVal] at hbytes ⊢
    rw [loadVal]
    simp
  case case9 =>
    intro len bs hwf save pos structs hsave hbytes
    simp only [rtWf, Bool.and_eq_true, beq_iff_eq] at hwf
    obtain ⟨hlen, _⟩ := hwf
    simp only [encVal] at hbytes ⊢
    rw [loadVal, loadBytes_state save pos structs bs len hbytes hlen]
    dsimp only
    simp [hlen]
  case case10 =>
    intro t vs ih hwf save pos structs hsave hbytes
    simp only [rtWf, Bool.and_eq_true, decide_eq_true_eq] at hwf
    obtain ⟨hlen, hall⟩ := hwf
    simp only [encVal] at hbytes ⊢
    obtain ⟨hb1, hb2⟩ := hasBytesAt_split
      (a := toLeBytes 4 vs.length) (b := encList vs (pos + 4)) hbytes
    rw [toLeBytes_length] at hb2
    rw [loadVal, loadRaw_state save pos structs _ 4 hb1 (toLeBytes_length 4 _)]
    dsimp only
    rw [fromLe_toLe (by norm_num [u32max] at hlen ⊢; omega)]
    rw [ih hall save (pos + 4) structs hsave hb2]
    dsimp only
    simp only [RRes.ok.injEq, Prod.mk.injEq, PersistentReadSavestate.mk.injEq,
      List.length_append, toLeBytes_length, true_and, and_true]
    omega
  case case11 =>
    intro t len vs ih hwf save pos structs hsave hbytes
    simp only [rtWf, Bool.and_eq_true, beq_iff_eq] at hwf
    obtain ⟨hlen, hall⟩ := hwf
    simp only [encVal] at hbytes ⊢
    rw [loadVal, ← hlen, ih hall save pos structs hsave hbytes]
  case case12 =>
    intro t hwf save pos structs hsave hbytes
    simp only [encVal] at hbytes ⊢
    rw [loadVal, loadRaw_state save pos structs _ 1 hbytes (toLeBytes_length 1 _)]
    dsimp only
    rw [show fromLeBytes (toLeBytes 1 0) = 0 from rfl]
    simp [toLeBytes_length]
  case case13 =>
    intro t v ih hwf save pos structs hsave hbytes
    simp only [rtWf] at hwf
    simp only [encVal] at hbytes ⊢
    obtain ⟨hb1, hb2⟩ := hasBytesAt_split
      (a := toLeBytes 1 1) (b := encVal v (pos + 1)) hbytes
    rw [toLeBytes_length] at hb2
    rw [loadVal, loadRaw_state save pos structs _ 1 hb1 (toLeBytes_length 1 _)]
    dsimp only
    rw [show fromLeBytes (toLeBytes 1 1) = 1 from rfl]
    simp only [if_neg (by norm_num : ¬ (1 : Nat) = 0)]
    rw [ih hwf save (pos + 1) structs hsave hb2]
    simp only [RRes.ok.injEq, Prod.mk.injEq, PersistentReadSavestate.mk.injEq,
      List.length_append, toLeBytes_length, true_and, and_true]
    omega
  case case14 =>
    intro t v ih hwf save pos structs hsave hbytes
    simp only [rtWf] at hwf
    simp only [encVal] at hbytes ⊢
    rw [loadVal, ih hwf save pos structs hsave hbytes]
  case case15 =>
    intro t v ih hwf save pos structs hsave hbytes
    simp only [rtWf] at hwf
    simp only [encVal] at hbytes ⊢
    rw [loadVal, ih hwf save pos structs hsave hbytes]
  case case16 =>
    intro ts vs ih hwf save pos structs hsave hbytes
    simp only [rtWf] at hwf
    simp only [encVal] at hbytes ⊢
    rw [loadVal, ih hwf save pos structs hsave hbytes]
  case case17 =>
    intro fts fvs ih hwf save pos structs hsave hbytes
    simp only [rtWf, Bool.and_eq_true, decide_eq_true_eq] at hwf
    obtain ⟨h255, hfields⟩ := hwf
    simp only [encVal] at hbytes ⊢
    set P := encFields fvs (pos + 4) with hP
    set E := PersistentWriteSavestate.entriesBytes (fieldOffs fvs (pos + 4)) with hE
    obtain ⟨hb1, hrest1⟩ := hasBytesAt_split
      (a := toLeBytes 4 (pos + 4 + P.length)) (b := P ++ [fvs.length] ++ E)
      (by simpa [List.append_assoc] using hbytes)
    rw [toLeBytes_length] at hrest1
    obtain ⟨hb2, hrest2⟩ := hasBytesAt_split (a := P) (b := [fvs.length] ++ E)
      (by simpa [List.append_assoc] using hrest1)
    have hrest2' : hasBytesAt save (pos + 4 + P.length) (fvs.length :: E) := by
      simpa using hrest2
    have hcountb : save[pos + 4 + P.length]? = some fvs.length :=
      hasBytesAt_getElem hrest2'
    obtain ⟨hcb, hentries⟩ := hasBytesAt_split (a := [fvs.length]) (b := E) hrest2'
    have hentries' : hasBytesAt save (pos + 4 + P.length + 1) E := by
      simpa using hentries
    -- start_struct
    rw [loadVal, PersistentReadSavestate.start_struct,
      loadRaw_state save pos structs _ 4 hb1 (toLeBytes_length 4 _)]
    dsimp only
    have hdirlt : pos + 4 + P.length < 2 ^ 32 := by
      obtain ⟨hl, _⟩ := hentries'
      norm_num [u32max] at hsave
      omega
    rw [fromLe_toLe (by norm_num <;> omega)]
    simp only [List.get?_eq_getElem?, hcountb]
    have hparse := parseFields_spec save (fieldOffs fvs (pos + 4)) (pos + 4 + P.length + 1)
      (by simpa only [hE] using hentries') ?wfents
    case wfents =>
      intro e he
      obtain ⟨⟨v', hv'⟩, hge, hle⟩ := fieldOffs_mem_bounds fvs (pos + 4) e he
      refine ⟨?_, ?_⟩
      · intro b hb
        exact rtWfFields_no_zero fts fvs hfields (e.1, v') hv' b hb
      · obtain ⟨hl, _⟩ := hb2
        rw [← hP] at hle
        norm_num [u32max] at hsave
        omega
    rw [show fvs.length = (fieldOffs fvs (pos + 4)).length from (fieldOffs_length _ _).symm,
      hparse]
    dsimp only
    -- loadFields via motive2
    have ihf := ih hfields save (pos + 4) [] (pos + 4 + P.length + 1 + E.length) structs
      (pos + 4) 0 hsave hb2 (Or.inl rfl)
    simp only [List.nil_append] at ihf
    obtain ⟨pos2, k2, ihf⟩ := ihf
    rw [← hE]
    rw [ihf]
    dsimp only
    -- end_struct
    rw [PersistentReadSavestate.end_struct]
    dsimp only
    simp only [RRes.ok.injEq, Prod.mk.injEq, PersistentReadSavestate.mk.injEq,
      List.length_append, List.length_cons, List.length_nil, toLeBytes_length,
      true_and, and_true]
    omega
  case case18 =>
    intro vts count idx payload ih hwf save pos structs hsave hbytes
    simp only [rtWf, Bool.and_eq_true, beq_iff_eq] at hwf
    obtain ⟨hcount, hmatch⟩ := hwf
    rcases hg : vts.get? idx with _ | t <;> rw [hg] at hmatch
    · simp at hmatch
    · subst hcount
      simp only [encVal] at hbytes ⊢
      obtain ⟨hb1, hb2⟩ := hasBytesAt_split
        (a := toLeBytes (discrBytes vts.length) idx)
        (b := encVal payload (pos + discrBytes vts.length)) hbytes
      rw [toLeBytes_length] at hb2
      have hidx : idx < vts.length := by
        by_contra hc
        rw [List.get?_eq_none.mpr (by omega)] at hg
        exact absurd hg (by simp)
      rw [loadVal, loadRaw_state save pos structs _ _ hb1 (toLeBytes_length _ idx)]
      dsimp only
      rw [fromLe_toLe (by
        rw [discrBytes_mul]
        exact lt_trans hidx (lt_discrBits_pow (by omega)))]
      rw [loadVariant_get vts idx t _ hg]
      rw [ih t hmatch save (pos + discrBytes vts.length) structs hsave hb2]
      dsimp only
      simp only [RRes.ok.injEq, Prod.mk.injEq, PersistentReadSavestate.mk.injEq,
        List.length_append, toLeBytes_length, true_and, and_true]
      omega
  case case19 =>
    intro x y h1 h2 h3 h4 h5 h6 h7 h8 h9 h10 h11 h12 h13 h14 h15 h16 h17 h18 hwf
    exfalso
    rw [rtWf.eq_def] at hwf
    split at hwf <;>
      first
      | exact h1 _ _ _ rfl rfl
      | exact h2 _ _ _ rfl rfl
      | exact h3 _ rfl rfl
      | exact h4 _ rfl rfl
      | exact h5 _ rfl rfl
      | exact h6 _ rfl rfl
      | exact h7 _ rfl rfl
      | exact h8 rfl rfl
      | exact h9 _ _ rfl rfl
      | exact h10 _ _ rfl rfl
      | exact h11 _ _ _ rfl rfl
      | exact h12 _ rfl rfl
      | exact h13 _ _ rfl rfl
      | exact h14 _ _ rfl rfl
      | exact h15 _ _ rfl rfl
      | exact h16 _ _ rfl rfl
      | exact h17 _ _ rfl rfl
      | exact h18 _ _ _ _ rfl rfl
      | simp at hwf
  case case20 =>
    intro hwf save b pre endPos rest pos k hsave hbytes hk
    refine ⟨pos, k, ?_⟩
    rw [loadFields]
  case case21 =>
    intro n1 t fts n2 v fvs ihv ihf hwf save b pre endPos rest pos k hsave hbytes hk
    simp only [rtWfFields, Bool.and_eq_true] at hwf
    obtain ⟨⟨⟨hname, hnz⟩, hv⟩, hf⟩ := hwf
    rw [beq_iff_eq] at hname
    subst hname
    rcases hk with hk | hk
    · subst hk
      simp only [encFields] at hbytes
      obtain ⟨hbv, hbrest⟩ := hasBytesAt_split
        (a := encVal v b) (b := encFields fvs (b + (encVal v b).length)) hbytes
      simp only [fieldOffs]
      have hgetk : (pre ++ (n1, b) :: fieldOffs fvs (b + (encVal v b).length)).get?
          pre.length = some (n1, b) := by
        rw [List.get?_append_right (le_refl pre.length)]
        simp
      rw [loadFields]
      rw [start_field_here rfl hgetk]
      dsimp only
      rw [ihv hv save b (⟨pre ++ (n1, b) :: fieldOffs fvs (b + (encVal v b).length),
        endPos, (if pre.length + 1 = (pre ++ (n1, b) ::
          fieldOffs fvs (b + (encVal v b).length)).length then 0
          else pre.length + 1)⟩ :: rest) hsave hbv]
      dsimp only
      -- recursive call on the remaining fields with pre' = pre ++ [(n1, b)]
      have hpre' : pre ++ (n1, b) :: fieldOffs fvs (b + (encVal v b).length) =
          (pre ++ [(n1, b)]) ++ fieldOffs fvs (b + (encVal v b).length) := by
        simp [List.append_assoc]
      have hk' : (if pre.length + 1 = (pre ++ (n1, b) ::
          fieldOffs fvs (b + (encVal v b).length)).length then 0 else pre.length + 1) =
            (pre ++ [(n1, b)]).length ∨ fvs = [] := by
        by_cases hwrap : pre.length + 1 = (pre ++ (n1, b) ::
            fieldOffs fvs (b + (encVal v b).length)).length
        · right
          simp only [List.length_append, List.length_cons, fieldOffs_length] at hwrap
          have : fvs.length = 0 := by omega
          exact List.length_eq_zero.mp this
        · left
          rw [if_neg hwrap]
          simp only [List.length_append, List.length_cons, List.length_nil]
      have ihf' := ihf hf save (b + (encVal v b).length) (pre ++ [(n1, b)]) endPos rest
        (b + (encVal v b).length) _ hsave hbrest hk'
      obtain ⟨pos2, k2, ihf'⟩ := ihf'
      rw [← hpre'] at ihf'
      rw [ihf']
      exact ⟨pos2, k2, rfl⟩
    · exact absurd hk (by simp)
  case case22 =>
    intro x y h1 h2 hwf
    exfalso
    rw [rtWfFields.eq_def] at hwf
    split at hwf <;>
      first
      | exact h1 rfl rfl
      | exact h2 _ _ _ _ _ _ rfl rfl
      | simp at hwf
  case case23 =>
    intro hwf save pos structs hsave hbytes
    rw [loadList]
    simp [encList]
  case case24 =>
    intro t ts v vs ihv ihs hwf save pos structs hsave hbytes
    simp only [rtWfZip, Bool.and_eq_true] at hwf
    obtain ⟨hv, hs'⟩ := hwf
    simp only [encList] at hbytes ⊢
    obtain ⟨hb1, hb2⟩ := hasBytesAt_split
      (a := encVal v pos) (b := encList vs (pos + (encVal v pos).length)) hbytes
    rw [loadList, ihv hv save pos structs hsave hb1]
    dsimp only
    rw [ihs hs' save (pos + (encVal v pos).length) structs hsave hb2]
    dsimp only
    simp only [RRes.ok.injEq, Prod.mk.injEq, PersistentReadSavestate.mk.injEq,
      List.length_append, true_and, and_true]
    omega
  case case25 =>
    intro x y h1 h2 hwf
    exfalso
    rw [rtWfZip.eq_def] at hwf
    split at hwf <;>
      first
      | exact h1 rfl rfl
      | exact h2 _ _ _ _ rfl rfl
      | simp at hwf
  case case26 =>
    intro t hwf save pos structs hsave hbytes
    rw [List.length_nil, loadRepeat]
    simp [encList]
  case case27 =>
    intro t v vs ihv ihs hwf save pos structs hsave hbytes
    simp only [rtWfAll, Bool.and_eq_true] at hwf
    obtain ⟨hv, hs'⟩ := hwf
    simp only [encList] at hbytes ⊢
    obtain ⟨hb1, hb2⟩ := hasBytesAt_split
      (a := encVal v pos) (b := encList vs (pos + (encVal v pos).length)) hbytes
    simp only [List.length_cons]
    rw [loadRepeat, ihv hv save pos structs hsave hb1]
    dsimp only
    rw [ihs hs' save (pos + (encVal v pos).length) structs hsave hb2]
    dsimp only
    simp only [RRes.ok.injEq, Prod.mk.injEq, PersistentReadSavestate.mk.injEq,
      List.length_append, true_and, and_true]
    omega

/-! ## C1: the persistent round trip -/

/-- **C1 counterexample**: the round trip is not the identity for every
value of a supported shape: `usize` values above `u32::MAX` come back
truncated (here `2^32` loads back as `0`), because `usize` is stored
through an `as u32` cast. -/
theorem roundtrip_usize_counterexample :
    storeVal (.usizeV (2 ^ 32)) ⟨[], []⟩ = .ok ⟨[0, 0, 0, 0], []⟩ ∧
    loadVal .usizeT ⟨[0, 0, 0, 0], 0, []⟩ = .ok (.usizeV 0, ⟨[0, 0, 0, 0], 4, []⟩) ∧
    Val.usizeV 0 ≠ Val.usizeV (2 ^ 32) := by
  refine ⟨?_, ?_, by simp⟩
  · have h : toLeBytes 4 ((2 ^ 32 : Nat) % 2 ^ 32) = [0, 0, 0, 0] := by
      rw [Nat.mod_self]
      rfl
    rw [show storeVal (.usizeV (2 ^ 32)) ⟨[], []⟩ =
      .ok (PersistentWriteSavestate.store_raw 4 ((2 ^ 32) % 2 ^ 32) ⟨[], []⟩) from by
        rw [storeVal]]
    rw [PersistentWriteSavestate.store_raw]
    rw [show ((2 ^ 32 : Nat)) % 2 ^ 32 = 0 from Nat.mod_self _]
    rfl
  · rw [loadVal]
    rw [loadRaw_state [0, 0, 0, 0] 0 [] [0, 0, 0, 0] 4 (by constructor <;> rfl) rfl]
    rfl

/-- **C1 (amended)**: for every well-formed value of a supported shape —
machine integers within their width, `usize`/`isize` fitting their stored
32-bit form, sequence lengths and the total encoding within the `u32`
limits, struct directories with at most 255 `0x00`-free-named fields, and
enum discriminants within the declared variants (all captured by `rtWf`) —
storing through a `PersistentWriteSavestate` into an empty buffer and
loading back through a `PersistentReadSavestate` (whose constructor checks
the length bound) succeeds and returns the value unchanged. -/
theorem roundtrip_persistent (t : Ty) (v : Val) (hwf : rtWf t v = true)
    (hsz : (encVal v 0).length ≤ u32max) :
    storeVal v ⟨[], []⟩ = .ok ⟨encVal v 0, []⟩ ∧
    PersistentReadSavestate.new (encVal v 0) = some ⟨encVal v 0, 0, []⟩ ∧
    loadVal t ⟨encVal v 0, 0, []⟩ = .ok (v, ⟨encVal v 0, (encVal v 0).length, []⟩) := by
  refine ⟨?_, ?_, ?_⟩
  · have h := storeVal_spec t v hwf ⟨[], []⟩ (by
      simp only [List.length_nil]
      unfold u32max at hsz
      omega)
    simpa using h
  · rw [PersistentReadSavestate.new, if_pos hsz]
  · have h := loadVal_spec t v hwf (encVal v 0) 0 [] hsz
      ⟨by simp, by simp⟩
    simpa using h

/-- Witness for the amended C1: a derived struct with a `u8` field `x` and
an optional `u16` field `y` round-trips through the persistent format. -/
theorem roundtrip_persistent_witness :
    storeVal (.structV [([120], .uV 1 5), ([121], .someV (.uV 2 300))]) ⟨[], []⟩ =
      .ok ⟨encVal (.structV [([120], .uV 1 5), ([121], .someV (.uV 2 300))]) 0, []⟩ ∧
    PersistentReadSavestate.new
        (encVal (.structV [([120], .uV 1 5), ([121], .someV (.uV 2 300))]) 0) =
      some ⟨encVal (.structV [([120], .uV 1 5), ([121], .someV (.uV 2 300))]) 0, 0, []⟩ ∧
    loadVal (.structT [([120], .uN 1), ([121], .optT (.uN 2))])
        ⟨encVal (.structV [([120], .uV 1 5), ([121], .someV (.uV 2 300))]) 0, 0, []⟩ =
      .ok (.structV [([120], .uV 1 5), ([121], .someV (.uV 2 300))],
        ⟨encVal (.structV [([120], .uV 1 5), ([121], .someV (.uV 2 300))]) 0,
          (encVal (.structV [([120], .uV 1 5), ([121], .someV (.uV 2 300))]) 0).length, []⟩) :=
  roundtrip_persistent (.structT [([120], .uN 1), ([121], .optT (.uN 2))])
    (.structV [([120], .uV 1 5), ([121], .someV (.uV 2 300))])
    (by simp +decide [rtWf, rtWfFields, rawWidth, u32max])
    (by simp [encVal, encFields, fieldOffs, PersistentWriteSavestate.entriesBytes,
      toLeBytes, u32max])

/-! ## C6: derived enum codecs -/

/-- Past the declared variants, the derive macro's discriminant match falls
through to the `invalid_enum` arm. -/
theorem loadVariant_invalid :
    ∀ (vts : List Ty) (d : Nat) (s : PersistentReadSavestate),
      vts.length ≤ d → loadVariant vts d s = .err .InvalidEnum := by
  intro vts
  induction vts with
  | nil => intro d s _; rw [loadVariant.eq_def]
  | cons t ts ih =>
    intro d s h
    cases d with
    | zero => simp at h
    | succ d2 =>
      rw [loadVariant]
      exact ih d2 s (by simp at h; omega)

/-- **C6**: every declared variant of a derived enum round-trips to itself
through the persistent channel, and loading a buffer whose discriminant is
`≥` the number of declared variants fails with `InvalidEnum`. -/
theorem enum_roundtrip_and_invalid :
    (∀ (vts : List Ty) (idx : Nat) (payload : Val),
      rtWf (.enumT vts) (.enumV vts.length idx payload) = true →
      (encVal (.enumV vts.length idx payload) 0).length ≤ u32max →
      storeVal (.enumV vts.length idx payload) ⟨[], []⟩ =
        .ok ⟨encVal (.enumV vts.length idx payload) 0, []⟩ ∧
      loadVal (.enumT vts) ⟨encVal (.enumV vts.length idx payload) 0, 0, []⟩ =
        .ok (.enumV vts.length idx payload,
          ⟨encVal (.enumV vts.length idx payload) 0,
            (encVal (.enumV vts.length idx payload) 0).length, []⟩)) ∧
    (∀ (vts : List Ty) (s s1 : PersistentReadSavestate) (d : Nat),
      s.load_raw (discrBytes vts.length) = .ok (d, s1) →
      vts.length ≤ d →
      loadVal (.enumT vts) s = .err .InvalidEnum) := by
  constructor
  · intro vts idx payload hwf hsz
    refine ⟨?_, ?_⟩
    · have h := storeVal_spec _ _ hwf ⟨[], []⟩ (by
        simp only [List.length_nil]
        unfold u32max at hsz
        omega)
      simpa using h
    · have h := loadVal_spec _ _ hwf (encVal (.enumV vts.length idx payload) 0) 0 [] hsz
        ⟨by simp, by simp⟩
      simpa using h
  · intro vts s s1 d hread hge
    rw [loadVal, hread]
    dsimp only
    rw [loadVariant_invalid vts d s1 hge]

/-- Witness for C6: a two-variant enum's second variant round-trips, and a
stored discriminant of 5 on a one-variant enum fails with `InvalidEnum`. -/
theorem enum_roundtrip_and_invalid_witness :
    (storeVal (.enumV 2 1 (.uV 1 7)) ⟨[], []⟩ =
        .ok ⟨encVal (.enumV 2 1 (.uV 1 7)) 0, []⟩ ∧
      loadVal (.enumT [.unitT, .uN 1]) ⟨encVal (.enumV 2 1 (.uV 1 7)) 0, 0, []⟩ =
        .ok (.enumV 2 1 (.uV 1 7),
          ⟨encVal (.enumV 2 1 (.uV 1 7)) 0, (encVal (.enumV 2 1 (.uV 1 7)) 0).length, []⟩)) ∧
    loadVal (.enumT [.unitT]) ⟨[5], 0, []⟩ = .err .InvalidEnum := by
  constructor
  · have h := enum_roundtrip_and_invalid.1 [.unitT, .uN 1] 1 (.uV 1 7)
      (by simp +decide [rtWf, rawWidth])
      (by simp [encVal, discrBytes, discrBits, nextPow2, bitLen, Nat.log2,
        toLeBytes, u32max])
    simpa using h
  · refine enum_roundtrip_and_invalid.2 [.unitT] ⟨[5], 0, []⟩ ⟨[5], 1, []⟩ 5 ?_ (by norm_num)
    have hd : discrBytes [Ty.unitT].length = 1 := by
      simp [discrBytes, discrBits, nextPow2, bitLen, Nat.log2]
    rw [hd]
    rw [loadRaw_state [5] 0 [] [5] 1 (by constructor <;> rfl) rfl]
    rfl

/-! ## C3: the `start_field` scan -/

/-- Reference description of one full circular scan: the first match in the
listed order, with its position and offset. -/
def listScan (l : List (List Nat × Nat)) (ident : List Nat) : Option (Nat × Nat) :=
  match l with
  | [] => none
  | e :: rest =>
    if e.1 = ident then some (0, e.2)
    else
      match listScan rest ident with
      | some (j, off) => some (j + 1, off)
      | none => none

theorem next_idx {start d len : Nat} (hs : start < len) (hd : d < len) :
    (if (start + d) % len + 1 = len then 0 else (start + d) % len + 1) =
      (start + d + 1) % len := by
  have h0 : 0 < len := by omega
  rcases Nat.lt_or_ge 1 len with h2 | h1
  · have hmod : (start + d + 1) % len = ((start + d) % len + 1) % len := by
      conv_lhs => rw [Nat.add_mod]
      rw [Nat.mod_eq_of_lt h2]
    by_cases hc : (start + d) % len + 1 = len
    · rw [if_pos hc, hmod, hc, Nat.mod_self]
    · have hlt : (start + d) % len + 1 < len := by
        have := Nat.mod_lt (start + d) h0
        omega
      rw [if_neg hc, hmod, Nat.mod_eq_of_lt hlt]
  · have hlen1 : len = 1 := by omega
    subst hlen1
    simp [Nat.mod_one]
theorem wrap_back {start d len : Nat} (hs : start < len) (hd : d < len) :
    ((start + d + 1) % len = start ↔ d + 1 = len) := by
  constructor
  · intro h
    rcases Nat.lt_or_ge (start + d + 1) len with h1 | h1
    · rw [Nat.mod_eq_of_lt h1] at h
      omega
    · have hsub : (start + d + 1) % len = start + d + 1 - len := by
        rw [Nat.mod_eq_sub_mod h1, Nat.mod_eq_of_lt (by omega)]
      rw [hsub] at h
      omega
  · intro h
    have he : start + d + 1 = start + len := by omega
    rw [he, Nat.add_mod_right, Nat.mod_eq_of_lt hs]

theorem rot_get {α : Type} (fields : List α) (start d : Nat)
    (hs : start < fields.length) (hd : d < fields.length) :
    (fields.drop start ++ fields.take start).get? d =
      fields.get? ((start + d) % fields.length) := by
  rcases Nat.lt_or_ge d (fields.length - start) with h1 | h1
  · rw [List.get?_append (by rw [List.length_drop]; omega)]
    rw [List.get?_drop]
    rw [Nat.mod_eq_of_lt (by omega)]
  · rw [List.get?_append_right (by rw [List.length_drop]; omega)]
    rw [List.get?_take (by rw [List.length_drop]; omega : d - (fields.drop start).length < start)]
    have : (start + d) % fields.length = d - (fields.drop start).length := by
      rw [List.length_drop]
      rw [Nat.mod_eq_sub_mod (by omega), Nat.mod_eq_of_lt (by omega)]
      omega
    rw [this]

/-- One full circular pass of the scan loop: starting `d` steps into the
rotation of `fields` at `start`, the loop returns the first match of the
remaining rotation (advancing the wrapped index just past it), or
not-found when no remaining entry matches. -/
theorem scanLoop_rot (fields : List (List Nat × Nat)) (ident : List Nat) (start : Nat)
    (hs : start < fields.length) :
    ∀ fuel d, d < fields.length → fields.length - d ≤ fuel →
      PersistentReadSavestate.scanLoop fields ident start fuel
          ((start + d) % fields.length) =
        (match listScan ((fields.drop start ++ fields.take start).drop d) ident with
        | some (j, off) => .found ((start + d + j + 1) % fields.length) off
        | none => .notFound) := by
  intro fuel
  induction fuel with
  | zero =>
    intro d hd hf
    omega
  | succ fuel ih =>
    intro d hd hf
    have hlen : 0 < fields.length := by omega
    have hi : (start + d) % fields.length < fields.length := Nat.mod_lt _ hlen
    obtain ⟨e, he⟩ : ∃ e, fields.get? ((start + d) % fields.length) = some e := by
      rcases h : fields.get? ((start + d) % fields.length) with _ | e
    
      · rw [List.get?_eq_none] at h
        omega
      · exact ⟨e, rfl⟩
    have hrot : (fields.drop start ++ fields.take start).get? d = some e := by
      rw [rot_get fields start d hs hd]
      exact he
    have hrotlen : (fields.drop start ++ fields.take start).length = fields.length := by
      rw [List.length_append, List.length_drop, List.length_take]
      omega
    have hdropd : (fields.drop start ++ fields.take start).drop d =
        e :: (fields.drop start ++ fields.take start).drop (d + 1) := by
      have hdlt : d < (fields.drop start ++ fields.take start).length := by omega
      rw [List.drop_eq_getElem_cons hdlt]
      rw [List.get?_eq_getElem?, List.getElem?_eq_getElem hdlt] at hrot
      simp only [Option.some.injEq] at hrot
      rw [hrot]
    rw [PersistentReadSavestate.scanLoop, he]
    dsimp only
    rw [hdropd, listScan]
    by_cases hm : e.1 = ident
    · rw [if_pos hm, if_pos hm]
      rw [next_idx hs hd]
    · rw [if_neg hm, if_neg hm]
      by_cases hw : (if (start + d) % fields.length + 1 = fields.length then 0
          else (start + d) % fields.length + 1) = start
      · rw [if_pos hw]
        rw [next_idx hs hd] at hw
        have hdl : d + 1 = fields.length := (wrap_back hs hd).mp hw
        have hnil : (fields.drop start ++ fields.take start).drop (d + 1) = [] := by
          rw [List.drop_eq_nil_iff_le]
          omega
        rw [hnil, listScan]
      · rw [if_neg hw]
        rw [next_idx hs hd] at hw
        have hdl : d + 1 < fields.length := by
          rcases Nat.lt_or_ge (d + 1) fields.length with h1 | h1
          · exact h1
          · exact absurd ((wrap_back hs hd).mpr (by omega)) hw
        rw [next_idx hs hd]
        rw [show start + d + 1 = start + (d + 1) from rfl]
        rw [ih (d + 1) hdl (by omega)]
        rcases hls : listScan ((fields.drop start ++ fields.take start).drop (d + 1)) ident
          with _ | ⟨j, off⟩
        · dsimp only
        · dsimp only
          have : start + d + (j + 1) + 1 = start + (d + 1) + j + 1 := by omega
          rw [this]

/-- C3 (corrected): for every persistent read channel with an open struct
frame whose directory is nonempty (at most 255 entries, remembered index in
range), `start_field` scans the directory from the remembered index with
wraparound: on the first cyclic match it succeeds, sets the cursor to the
entry's offset and advances the remembered index just past the match
(wrapping); with no match it returns `FieldNotFound`. When the directory is
EMPTY, however, the claim's parenthetical fails: the loop indexes
`fields[cur_field]` on an empty `Vec` and panics instead of returning
`FieldNotFound`. -/
theorem start_field_scan (s : PersistentReadSavestate) (f : RStructInfo)
    (rest : List RStructInfo) (ident : List Nat)
    (hframe : s.structs = f :: rest)
    (hlen : f.fields.length ≤ 255)
    (hcur : f.cur_field < f.fields.length ∨ f.fields = []) :
    (f.fields = [] → s.start_field ident = .panic) ∧
    (f.fields ≠ [] →
      s.start_field ident =
        match listScan (f.fields.drop f.cur_field ++ f.fields.take f.cur_field) ident with
        | some (j, off) => .ok { s with
            pos := off
            structs := { f with
              cur_field := (f.cur_field + j + 1) % f.fields.length } :: rest }
        | none => .err .FieldNotFound) := by
  constructor
  · intro hnil
    rw [PersistentReadSavestate.start_field, hframe]
    dsimp only
    rw [hnil]
    rw [PersistentReadSavestate.scanLoop]
    simp
  · intro hne
    have hcur' : f.cur_field < f.fields.length := by
      rcases hcur with h | h
      · exact h
      · exact absurd h hne
    rw [PersistentReadSavestate.start_field, hframe]
    dsimp only
    have h0 : (f.cur_field + 0) % f.fields.length = f.cur_field := by
      rw [Nat.add_zero, Nat.mod_eq_of_lt hcur']
    have hrot := scanLoop_rot f.fields ident f.cur_field hcur'
      (f.fields.length + 1) 0 (by omega) (by omega)
    rw [h0, List.drop_zero] at hrot
    simp only [Nat.add_zero] at hrot
    rw [hrot]
    rcases hls : listScan (f.fields.drop f.cur_field ++ f.fields.take f.cur_field) ident
      with _ | ⟨j, off⟩
    · dsimp only
    · dsimp only

theorem start_field_scan_witness :
    PersistentReadSavestate.start_field [120] ⟨[9], 0, [⟨[([120], 7)], 3, 0⟩]⟩ =
      .ok ⟨[9], 7, [⟨[([120], 7)], 3, 0⟩]⟩ := by
  have h := (start_field_scan ⟨[9], 0, [⟨[([120], 7)], 3, 0⟩]⟩ ⟨[([120], 7)], 3, 0⟩ [] [120]
    rfl (by decide) (Or.inl (by decide))).2 (by decide)
  rw [h]
  rfl

/-- C3 counterexample part: with an open frame whose directory is empty,
`start_field` panics (out-of-bounds `Vec` index) instead of returning
`FieldNotFound` as claimed. -/
theorem start_field_empty_dir_counterexample :
    PersistentReadSavestate.start_field [120] ⟨[], 0, [⟨[], 0, 0⟩]⟩ = .panic ∧
    (RRes.panic : RRes PersistentReadSavestate) ≠ .err .FieldNotFound := by
  constructor
  · rfl
  · intro h
    exact RRes.noConfusion h

/-- `start_struct` on the encoding of a struct value: reads the directory
offset, parses the whole directory, and pushes a frame whose resume
position is the end of the encoding. -/
theorem start_struct_of_enc (fvs : List (List Nat × Val)) (save : List Nat)
    (pos : Nat) (structs : List RStructInfo)
    (hsave : save.length ≤ u32max)
    (hbytes : hasBytesAt save pos (encVal (.structV fvs) pos))
    (hnz : ∀ e ∈ fvs, ∀ b ∈ e.1, b ≠ 0) :
    PersistentReadSavestate.start_struct ⟨save, pos, structs⟩ =
      .ok ⟨save, pos + 4,
        ⟨fieldOffs fvs (pos + 4), pos + (encVal (.structV fvs) pos).length, 0⟩ :: structs⟩ := by
  simp only [encVal] at hbytes ⊢
  set P := encFields fvs (pos + 4) with hP
  set E := PersistentWriteSavestate.entriesBytes (fieldOffs fvs (pos + 4)) with hE
  obtain ⟨hb1, hrest1⟩ := hasBytesAt_split
    (a := toLeBytes 4 (pos + 4 + P.length)) (b := P ++ [fvs.length] ++ E)
    (by simpa [List.append_assoc] using hbytes)
  rw [toLeBytes_length] at hrest1
  obtain ⟨hb2, hrest2⟩ := hasBytesAt_split (a := P) (b := [fvs.length] ++ E)
    (by simpa [List.append_assoc] using hrest1)
  have hrest2' : hasBytesAt save (pos + 4 + P.length) (fvs.length :: E) := by
    simpa using hrest2
  have hcountb : save[pos + 4 + P.length]? = some fvs.length :=
    hasBytesAt_getElem hrest2'
  obtain ⟨hcb, hentries⟩ := hasBytesAt_split (a := [fvs.length]) (b := E) hrest2'
  have hentries' : hasBytesAt save (pos + 4 + P.length + 1) E := by
    simpa using hentries
  rw [PersistentReadSavestate.start_struct,
    loadRaw_state save pos structs _ 4 hb1 (toLeBytes_length 4 _)]
  dsimp only
  have hdirlt : pos + 4 + P.length < 2 ^ 32 := by
    obtain ⟨hl, _⟩ := hentries'
    norm_num [u32max] at hsave
    omega
  rw [fromLe_toLe (by norm_num <;> omega)]
  simp only [List.get?_eq_getElem?, hcountb]
  have hparse := parseFields_spec save (fieldOffs fvs (pos + 4)) (pos + 4 + P.length + 1)
    (by simpa only [hE] using hentries') ?wfents
  case wfents =>
    intro e he
    obtain ⟨⟨v', hv'⟩, hge, hle⟩ := fieldOffs_mem_bounds fvs (pos + 4) e he
    refine ⟨?_, ?_⟩
    · intro b hb
      exact hnz (e.1, v') hv' b hb
    · obtain ⟨hl, _⟩ := hb2
      rw [← hP] at hle
      norm_num [u32max] at hsave
      omega
  rw [show fvs.length = (fieldOffs fvs (pos + 4)).length from (fieldOffs_length _ _).symm,
    hparse]
  dsimp only
  simp only [RRes.ok.injEq, PersistentReadSavestate.mk.injEq, RStructInfo.mk.injEq,
    List.length_append, List.length_cons, toLeBytes_length, true_and, and_true]
  rw [← hE]
  simp only [List.length_nil, Nat.zero_add]
  rw [show pos + 4 + P.length + 1 + E.length = pos + (4 + P.length + 1 + E.length) by omega]

/-- `start_field` when the circular scan from the remembered index finds a
match `j` steps along the rotation, at offset `off`. -/
theorem start_field_found {s : PersistentReadSavestate} {f : RStructInfo}
    {rest : List RStructInfo} {ident : List Nat} {j off : Nat}
    (hframe : s.structs = f :: rest)
    (hcur : f.cur_field < f.fields.length)
    (hscan : listScan (f.fields.drop f.cur_field ++ f.fields.take f.cur_field) ident =
      some (j, off)) :
    s.start_field ident = .ok { s with
      pos := off
      structs := { f with
        cur_field := (f.cur_field + j + 1) % f.fields.length } :: rest } := by
  rw [PersistentReadSavestate.start_field, hframe]
  dsimp only
  have h0 : (f.cur_field + 0) % f.fields.length = f.cur_field := by
    rw [Nat.add_zero, Nat.mod_eq_of_lt hcur]
  have hrot := scanLoop_rot f.fields ident f.cur_field hcur
    (f.fields.length + 1) 0 (by omega) (by omega)
  rw [h0, List.drop_zero] at hrot
  simp only [Nat.add_zero] at hrot
  rw [hrot, hscan]

/-- Loading a struct stored with fields (a, b, c) while requesting
(c, a, b): the scan finds each entry and the same values are returned. -/
theorem load_reordered (ta tb tc : Ty) (va vb vc : Val)
    (hwa : rtWf ta va = true) (hwb : rtWf tb vb = true) (hwc : rtWf tc vc = true)
    (hsz : (encVal (.structV [([97], va), ([98], vb), ([99], vc)]) 0).length ≤ u32max) :
    loadVal (.structT [([99], tc), ([97], ta), ([98], tb)])
        ⟨encVal (.structV [([97], va), ([98], vb), ([99], vc)]) 0, 0, []⟩ =
      .ok (.structV [([99], vc), ([97], va), ([98], vb)],
        ⟨encVal (.structV [([97], va), ([98], vb), ([99], vc)]) 0,
         (encVal (.structV [([97], va), ([98], vb), ([99], vc)]) 0).length, []⟩) := by
  set B := encVal (.structV [([97], va), ([98], vb), ([99], vc)]) 0 with hB
  have hAll : hasBytesAt B 0 (encVal (.structV [([97], va), ([98], vb), ([99], vc)]) 0) := by
    refine ⟨?_, ?_⟩
    · rw [hB]
      omega
    · rw [hB]
      simp
  -- per-field byte coverage
  have hAll2 := hAll
  rw [show encVal (.structV [([97], va), ([98], vb), ([99], vc)]) 0 =
    toLeBytes 4 (0 + 4 + (encFields [([97], va), ([98], vb), ([99], vc)] (0 + 4)).length) ++
      (encFields [([97], va), ([98], vb), ([99], vc)] (0 + 4) ++
        ([3] ++ PersistentWriteSavestate.entriesBytes
          (fieldOffs [([97], va), ([98], vb), ([99], vc)] (0 + 4))))
    from by rw [encVal]; simp [List.append_assoc]] at hAll2
  obtain ⟨hb1, hrest1⟩ := hasBytesAt_split hAll2
  rw [toLeBytes_length] at hrest1
  obtain ⟨hPb, _⟩ := hasBytesAt_split hrest1
  simp only [Nat.zero_add] at hPb
  rw [show encFields [([97], va), ([98], vb), ([99], vc)] 4 =
      encVal va 4 ++ (encVal vb (4 + (encVal va 4).length) ++
        encVal vc (4 + (encVal va 4).length + (encVal vb (4 + (encVal va 4).length)).length))
    from by simp [encFields]] at hPb
  obtain ⟨hva, hrest2⟩ := hasBytesAt_split hPb
  obtain ⟨hvb, hvc⟩ := hasBytesAt_split hrest2
  have hnz : ∀ e ∈ [([97], va), ([98], vb), ([99], vc)], ∀ b ∈ (e : List Nat × Val).1, b ≠ 0 := by
    intro e he
    simp only [List.mem_cons, List.not_mem_nil, or_false] at he
    rcases he with h | h | h <;> subst h <;> simp
  have hss := start_struct_of_enc [([97], va), ([98], vb), ([99], vc)] B 0 [] hsz hAll hnz
  rw [loadVal, hss]
  dsimp only
  rw [← hB]
  simp only [Nat.zero_add]
  rw [show fieldOffs [([97], va), ([98], vb), ([99], vc)] 4 =
      [([97], 4), ([98], 4 + (encVal va 4).length),
       ([99], 4 + (encVal va 4).length + (encVal vb (4 + (encVal va 4).length)).length)]
    from by simp [fieldOffs]]
  rw [loadFields]
  have hsf1 : PersistentReadSavestate.start_field [99] ⟨B, 4, [⟨[([97], 4), ([98], 4 + (encVal va 4).length), ([99], 4 + (encVal va 4).length + (encVal vb (4 + (encVal va 4).length)).length)], B.length, 0⟩]⟩ =
      .ok ⟨B, 4 + (encVal va 4).length + (encVal vb (4 + (encVal va 4).length)).length, [⟨[([97], 4), ([98], 4 + (encVal va 4).length), ([99], 4 + (encVal va 4).length + (encVal vb (4 + (encVal va 4).length)).length)], B.length, 0⟩]⟩ := by
    refine Eq.trans (@start_field_found ⟨B, 4, [⟨[([97], 4), ([98], 4 + (encVal va 4).length), ([99], 4 + (encVal va 4).length + (encVal vb (4 + (encVal va 4).length)).length)], B.length, 0⟩]⟩ ⟨[([97], 4), ([98], 4 + (encVal va 4).length), ([99], 4 + (encVal va 4).length + (encVal vb (4 + (encVal va 4).length)).length)], B.length, 0⟩ [] [99] 2 (4 + (encVal va 4).length + (encVal vb (4 + (encVal va 4).length)).length) rfl (by simp) rfl) ?_
    simp
  rw [hsf1]
  dsimp only
  rw [loadVal_spec tc vc hwc B (4 + (encVal va 4).length + (encVal vb (4 + (encVal va 4).length)).length) [⟨[([97], 4), ([98], 4 + (encVal va 4).length), ([99], 4 + (encVal va 4).length + (encVal vb (4 + (encVal va 4).length)).length)], B.length, 0⟩] hsz hvc]
  dsimp only
  rw [loadFields]
  have hsf2 : PersistentReadSavestate.start_field [97] ⟨B, 4 + (encVal va 4).length + (encVal vb (4 + (encVal va 4).length)).length + (encVal vc (4 + (encVal va 4).length + (encVal vb (4 + (encVal va 4).length)).length)).length, [⟨[([97], 4), ([98], 4 + (encVal va 4).length), ([99], 4 + (encVal va 4).length + (encVal vb (4 + (encVal va 4).length)).length)], B.length, 0⟩]⟩ =
      .ok ⟨B, 4, [⟨[([97], 4), ([98], 4 + (encVal va 4).length), ([99], 4 + (encVal va 4).length + (encVal vb (4 + (encVal va 4).length)).length)], B.length, 1⟩]⟩ := by
    refine Eq.trans (@start_field_found ⟨B, 4 + (encVal va 4).length + (encVal vb (4 + (encVal va 4).length)).length + (encVal vc (4 + (encVal va 4).length + (encVal vb (4 + (encVal va 4).length)).length)).length, [⟨[([97], 4), ([98], 4 + (encVal va 4).length), ([99], 4 + (encVal va 4).length + (encVal vb (4 + (encVal va 4).length)).length)], B.length, 0⟩]⟩ ⟨[([97], 4), ([98], 4 + (encVal va 4).length), ([99], 4 + (encVal va 4).length + (encVal vb (4 + (encVal va 4).length)).length)], B.length, 0⟩ [] [97] 0 4 rfl (by simp) rfl) ?_
    simp
  rw [hsf2]
  dsimp only
  rw [loadVal_spec ta va hwa B 4 [⟨[([97], 4), ([98], 4 + (encVal va 4).length), ([99], 4 + (encVal va 4).length + (encVal vb (4 + (encVal va 4).length)).length)], B.length, 1⟩] hsz hva]
  dsimp only
  rw [loadFields]
  have hsf3 : PersistentReadSavestate.start_field [98] ⟨B, 4 + (encVal va 4).length, [⟨[([97], 4), ([98], 4 + (encVal va 4).length), ([99], 4 + (encVal va 4).length + (encVal vb (4 + (encVal va 4).length)).length)], B.length, 1⟩]⟩ =
      .ok ⟨B, 4 + (encVal va 4).length, [⟨[([97], 4), ([98], 4 + (encVal va 4).length), ([99], 4 + (encVal va 4).length + (encVal vb (4 + (encVal va 4).length)).length)], B.length, 2⟩]⟩ := by
    refine Eq.trans (@start_field_found ⟨B, 4 + (encVal va 4).length, [⟨[([97], 4), ([98], 4 + (encVal va 4).length), ([99], 4 + (encVal va 4).length + (encVal vb (4 + (encVal va 4).length)).length)], B.length, 1⟩]⟩ ⟨[([97], 4), ([98], 4 + (encVal va 4).length), ([99], 4 + (encVal va 4).length + (encVal vb (4 + (encVal va 4).length)).length)], B.length, 1⟩ [] [98] 0 (4 + (encVal va 4).length) rfl (by simp) rfl) ?_
    simp
  rw [hsf3]
  dsimp only
  rw [loadVal_spec tb vb hwb B (4 + (encVal va 4).length) [⟨[([97], 4), ([98], 4 + (encVal va 4).length), ([99], 4 + (encVal va 4).length + (encVal vb (4 + (encVal va 4).length)).length)], B.length, 2⟩] hsz hvb]
  dsimp only
  rw [loadFields]
  dsimp only
  rw [PersistentReadSavestate.end_struct]

/-- Loading a struct stored with fields (a, b, c, d) by a loader that only
requests (a, b, c): the extra directory entry and payload are skipped, and
`end_struct` resumes at the end of the whole encoding. -/
theorem load_extra (ta tb tc : Ty) (va vb vc vd : Val)
    (hwa : rtWf ta va = true) (hwb : rtWf tb vb = true) (hwc : rtWf tc vc = true)
    (hsz : (encVal (.structV [([97], va), ([98], vb), ([99], vc), ([100], vd)]) 0).length ≤ u32max) :
    loadVal (.structT [([97], ta), ([98], tb), ([99], tc)])
        ⟨encVal (.structV [([97], va), ([98], vb), ([99], vc), ([100], vd)]) 0, 0, []⟩ =
      .ok (.structV [([97], va), ([98], vb), ([99], vc)],
        ⟨encVal (.structV [([97], va), ([98], vb), ([99], vc), ([100], vd)]) 0,
         (encVal (.structV [([97], va), ([98], vb), ([99], vc), ([100], vd)]) 0).length, []⟩) := by
  set B := encVal (.structV [([97], va), ([98], vb), ([99], vc), ([100], vd)]) 0 with hB
  have hAll : hasBytesAt B 0 (encVal (.structV [([97], va), ([98], vb), ([99], vc), ([100], vd)]) 0) := by
    refine ⟨?_, ?_⟩
    · rw [hB]
      omega
    · rw [hB]
      simp
  have hAll2 := hAll
  rw [show encVal (.structV [([97], va), ([98], vb), ([99], vc), ([100], vd)]) 0 =
    toLeBytes 4 (0 + 4 + (encFields [([97], va), ([98], vb), ([99], vc), ([100], vd)] (0 + 4)).length) ++
      (encFields [([97], va), ([98], vb), ([99], vc), ([100], vd)] (0 + 4) ++
        ([4] ++ PersistentWriteSavestate.entriesBytes
          (fieldOffs [([97], va), ([98], vb), ([99], vc), ([100], vd)] (0 + 4))))
    from by rw [encVal]; simp [List.append_assoc]] at hAll2
  obtain ⟨hb1, hrest1⟩ := hasBytesAt_split hAll2
  rw [toLeBytes_length] at hrest1
  obtain ⟨hPb, _⟩ := hasBytesAt_split hrest1
  simp only [Nat.zero_add] at hPb
  rw [show encFields [([97], va), ([98], vb), ([99], vc), ([100], vd)] 4 =
      encVal va 4 ++ (encVal vb (4 + (encVal va 4).length) ++
        (encVal vc (4 + (encVal va 4).length + (encVal vb (4 + (encVal va 4).length)).length) ++ encVal vd (4 + (encVal va 4).length + (encVal vb (4 + (encVal va 4).length)).length + (encVal vc (4 + (encVal va 4).length + (encVal vb (4 + (encVal va 4).length)).length)).length)))
    from by simp [encFields]] at hPb
  obtain ⟨hva, hrest2⟩ := hasBytesAt_split hPb
  obtain ⟨hvb, hrest3⟩ := hasBytesAt_split hrest2
  obtain ⟨hvc, _⟩ := hasBytesAt_split hrest3
  have hnz : ∀ e ∈ [([97], va), ([98], vb), ([99], vc), ([100], vd)], ∀ b ∈ (e : List Nat × Val).1, b ≠ 0 := by
    intro e he
    simp only [List.mem_cons, List.not_mem_nil, or_false] at he
    rcases he with h | h | h | h <;> subst h <;> simp
  have hss := start_struct_of_enc [([97], va), ([98], vb), ([99], vc), ([100], vd)] B 0 [] hsz hAll hnz
  rw [loadVal, hss]
  dsimp only
  rw [← hB]
  simp only [Nat.zero_add]
  rw [show fieldOffs [([97], va), ([98], vb), ([99], vc), ([100], vd)] 4 = [([97], 4), ([98], 4 + (encVal va 4).length), ([99], 4 + (encVal va 4).length + (encVal vb (4 + (encVal va 4).length)).length), ([100], 4 + (encVal va 4).length + (encVal vb (4 + (encVal va 4).length)).length + (encVal vc (4 + (encVal va 4).length + (encVal vb (4 + (encVal va 4).length)).length)).length)]
    from by simp [fieldOffs]]
  rw [loadFields]
  have hsf1 : PersistentReadSavestate.start_field [97] ⟨B, 4, [⟨[([97], 4), ([98], 4 + (encVal va 4).length), ([99], 4 + (encVal va 4).length + (encVal vb (4 + (encVal va 4).length)).length), ([100], 4 + (encVal va 4).length + (encVal vb (4 + (encVal va 4).length)).length + (encVal vc (4 + (encVal va 4).length + (encVal vb (4 + (encVal va 4).length)).length)).length)], B.length, 0⟩]⟩ =
      .ok ⟨B, 4, [⟨[([97], 4), ([98], 4 + (encVal va 4).length), ([99], 4 + (encVal va 4).length + (encVal vb (4 + (encVal va 4).length)).length), ([100], 4 + (encVal va 4).length + (encVal vb (4 + (encVal va 4).length)).length + (encVal vc (4 + (encVal va 4).length + (encVal vb (4 + (encVal va 4).length)).length)).length)], B.length, 1⟩]⟩ := by
    refine Eq.trans (@start_field_found ⟨B, 4, [⟨[([97], 4), ([98], 4 + (encVal va 4).length), ([99], 4 + (encVal va 4).length + (encVal vb (4 + (encVal va 4).length)).length), ([100], 4 + (encVal va 4).length + (encVal vb (4 + (encVal va 4).length)).length + (encVal vc (4 + (encVal va 4).length + (encVal vb (4 + (encVal va 4).length)).length)).length)], B.length, 0⟩]⟩ ⟨[([97], 4), ([98], 4 + (encVal va 4).length), ([99], 4 + (encVal va 4).length + (encVal vb (4 + (encVal va 4).length)).length), ([100], 4 + (encVal va 4).length + (encVal vb (4 + (encVal va 4).length)).length + (encVal vc (4 + (encVal va 4).length + (encVal vb (4 + (encVal va 4).length)).length)).length)], B.length, 0⟩ [] [97] 0 4 rfl (by simp) rfl) ?_
    simp
  rw [hsf1]
  dsimp only
  rw [loadVal_spec ta va hwa B 4 [⟨[([97], 4), ([98], 4 + (encVal va 4).length), ([99], 4 + (encVal va 4).length + (encVal vb (4 + (encVal va 4).length)).length), ([100], 4 + (encVal va 4).length + (encVal vb (4 + (encVal va 4).length)).length + (encVal vc (4 + (encVal va 4).length + (encVal vb (4 + (encVal va 4).length)).length)).length)], B.length, 1⟩] hsz hva]
  dsimp only
  rw [loadFields]
  have hsf2 : PersistentReadSavestate.start_field [98] ⟨B, 4 + (encVal va 4).length, [⟨[([97], 4), ([98], 4 + (encVal va 4).length), ([99], 4 + (encVal va 4).length + (encVal vb (4 + (encVal va 4).length)).length), ([100], 4 + (encVal va 4).length + (encVal vb (4 + (encVal va 4).length)).length + (encVal vc (4 + (encVal va 4).length + (encVal vb (4 + (encVal va 4).length)).length)).length)], B.length, 1⟩]⟩ =
      .ok ⟨B, 4 + (encVal va 4).length, [⟨[([97], 4), ([98], 4 + (encVal va 4).length), ([99], 4 + (encVal va 4).length + (encVal vb (4 + (encVal va 4).length)).length), ([100], 4 + (encVal va 4).length + (encVal vb (4 + (encVal va 4).length)).length + (encVal vc (4 + (encVal va 4).length + (encVal vb (4 + (encVal va 4).length)).length)).length)], B.length, 2⟩]⟩ := by
    refine Eq.trans (@start_field_found ⟨B, 4 + (encVal va 4).length, [⟨[([97], 4), ([98], 4 + (encVal va 4).length), ([99], 4 + (encVal va 4).length + (encVal vb (4 + (encVal va 4).length)).length), ([100], 4 + (encVal va 4).length + (encVal vb (4 + (encVal va 4).length)).length + (encVal vc (4 + (encVal va 4).length + (encVal vb (4 + (encVal va 4).length)).length)).length)], B.length, 1⟩]⟩ ⟨[([97], 4), ([98], 4 + (encVal va 4).length), ([99], 4 + (encVal va 4).length + (encVal vb (4 + (encVal va 4).length)).length), ([100], 4 + (encVal va 4).length + (encVal vb (4 + (encVal va 4).length)).length + (encVal vc (4 + (encVal va 4).length + (encVal vb (4 + (encVal va 4).length)).length)).length)], B.length, 1⟩ [] [98] 0 (4 + (encVal va 4).length) rfl (by simp) rfl) ?_
    simp
  rw [hsf2]
  dsimp only
  rw [loadVal_spec tb vb hwb B (4 + (encVal va 4).length) [⟨[([97], 4), ([98], 4 + (encVal va 4).length), ([99], 4 + (encVal va 4).length + (encVal vb (4 + (encVal va 4).length)).length), ([100], 4 + (encVal va 4).length + (encVal vb (4 + (encVal va 4).length)).length + (encVal vc (4 + (encVal va 4).length + (encVal vb (4 + (encVal va 4).length)).length)).length)], B.length, 2⟩] hsz hvb]
  dsimp only
  rw [loadFields]
  have hsf3 : PersistentReadSavestate.start_field [99] ⟨B, 4 + (encVal va 4).length + (encVal vb (4 + (encVal va 4).length)).length, [⟨[([97], 4), ([98], 4 + (encVal va 4).length), ([99], 4 + (encVal va 4).length + (encVal vb (4 + (encVal va 4).length)).length), ([100], 4 + (encVal va 4).length + (encVal vb (4 + (encVal va 4).length)).length + (encVal vc (4 + (encVal va 4).length + (encVal vb (4 + (encVal va 4).length)).length)).length)], B.length, 2⟩]⟩ =
      .ok ⟨B, 4 + (encVal va 4).length + (encVal vb (4 + (encVal va 4).length)).length, [⟨[([97], 4), ([98], 4 + (encVal va 4).length), ([99], 4 + (encVal va 4).length + (encVal vb (4 + (encVal va 4).length)).length), ([100], 4 + (encVal va 4).length + (encVal vb (4 + (encVal va 4).length)).length + (encVal vc (4 + (encVal va 4).length + (encVal vb (4 + (encVal va 4).length)).length)).length)], B.length, 3⟩]⟩ := by
    refine Eq.trans (@start_field_found ⟨B, 4 + (encVal va 4).length + (encVal vb (4 + (encVal va 4).length)).length, [⟨[([97], 4), ([98], 4 + (encVal va 4).length), ([99], 4 + (encVal va 4).length + (encVal vb (4 + (encVal va 4).length)).length), ([100], 4 + (encVal va 4).length + (encVal vb (4 + (encVal va 4).length)).length + (encVal vc (4 + (encVal va 4).length + (encVal vb (4 + (encVal va 4).length)).length)).length)], B.length, 2⟩]⟩ ⟨[([97], 4), ([98], 4 + (encVal va 4).length), ([99], 4 + (encVal va 4).length + (encVal vb (4 + (encVal va 4).length)).length), ([100], 4 + (encVal va 4).length + (encVal vb (4 + (encVal va 4).length)).length + (encVal vc (4 + (encVal va 4).length + (encVal vb (4 + (encVal va 4).length)).length)).length)], B.length, 2⟩ [] [99] 0 (4 + (encVal va 4).length + (encVal vb (4 + (encVal va 4).length)).length) rfl (by simp) rfl) ?_
    simp
  rw [hsf3]
  dsimp only
  rw [loadVal_spec tc vc hwc B (4 + (encVal va 4).length + (encVal vb (4 + (encVal va 4).length)).length) [⟨[([97], 4), ([98], 4 + (encVal va 4).length), ([99], 4 + (encVal va 4).length + (encVal vb (4 + (encVal va 4).length)).length), ([100], 4 + (encVal va 4).length + (encVal vb (4 + (encVal va 4).length)).length + (encVal vc (4 + (encVal va 4).length + (encVal vb (4 + (encVal va 4).length)).length)).length)], B.length, 3⟩] hsz hvc]
  dsimp only
  rw [loadFields]
  dsimp only
  rw [PersistentReadSavestate.end_struct]

/-- C5: a struct stored on the persistent channel with fields (a, b, c), in
that order, loads identically through a loader that requests (c, a, b); and
a save whose directory carries an extra field d the loader never requests
still loads the declared fields (a, b, c), with `end_struct` placing the
cursor at the frame's resume position (the end of the whole struct
encoding), so the extra entry and its payload bytes are ignored. -/
theorem field_reorder_and_removal_tolerance
    (ta tb tc td : Ty) (va vb vc vd : Val)
    (hwa : rtWf ta va = true) (hwb : rtWf tb vb = true)
    (hwc : rtWf tc vc = true) (hwd : rtWf td vd = true)
    (hsz3 : (encVal (.structV [([97], va), ([98], vb), ([99], vc)]) 0).length ≤ u32max)
    (hsz4 : (encVal (.structV [([97], va), ([98], vb), ([99], vc), ([100], vd)]) 0).length ≤ u32max) :
    (storeVal (.structV [([97], va), ([98], vb), ([99], vc)]) ⟨[], []⟩ = .ok ⟨encVal (.structV [([97], va), ([98], vb), ([99], vc)]) 0, []⟩ ∧
     loadVal (.structT [([99], tc), ([97], ta), ([98], tb)]) ⟨encVal (.structV [([97], va), ([98], vb), ([99], vc)]) 0, 0, []⟩ =
       .ok (.structV [([99], vc), ([97], va), ([98], vb)],
         ⟨encVal (.structV [([97], va), ([98], vb), ([99], vc)]) 0, (encVal (.structV [([97], va), ([98], vb), ([99], vc)]) 0).length, []⟩)) ∧
    (storeVal (.structV [([97], va), ([98], vb), ([99], vc), ([100], vd)]) ⟨[], []⟩ = .ok ⟨encVal (.structV [([97], va), ([98], vb), ([99], vc), ([100], vd)]) 0, []⟩ ∧
     loadVal (.structT [([97], ta), ([98], tb), ([99], tc)]) ⟨encVal (.structV [([97], va), ([98], vb), ([99], vc), ([100], vd)]) 0, 0, []⟩ =
       .ok (.structV [([97], va), ([98], vb), ([99], vc)],
         ⟨encVal (.structV [([97], va), ([98], vb), ([99], vc), ([100], vd)]) 0, (encVal (.structV [([97], va), ([98], vb), ([99], vc), ([100], vd)]) 0).length, []⟩)) := by
  refine ⟨⟨?_, ?_⟩, ⟨?_, ?_⟩⟩
  · have hwf : rtWf (.structT [([97], ta), ([98], tb), ([99], tc)])
        (.structV [([97], va), ([98], vb), ([99], vc)]) = true := by
      simp [rtWf, rtWfFields, hwa, hwb, hwc]
    have h := storeVal_spec _ _ hwf ⟨[], []⟩ (by
      simp only [List.length_nil]
      unfold u32max at hsz3
      omega)
    simpa using h
  · exact load_reordered ta tb tc va vb vc hwa hwb hwc hsz3
  · have hwf : rtWf (.structT [([97], ta), ([98], tb), ([99], tc), ([100], td)])
        (.structV [([97], va), ([98], vb), ([99], vc), ([100], vd)]) = true := by
      simp [rtWf, rtWfFields, hwa, hwb, hwc, hwd]
    have h := storeVal_spec _ _ hwf ⟨[], []⟩ (by
      simp only [List.length_nil]
      unfold u32max at hsz4
      omega)
    simpa using h
  · exact load_extra ta tb tc va vb vc vd hwa hwb hwc hsz4

theorem field_reorder_and_removal_tolerance_witness :
    (storeVal (.structV [([97], Val.uV 1 1), ([98], Val.uV 1 2), ([99], Val.uV 1 3)]) ⟨[], []⟩ = .ok ⟨encVal (.structV [([97], Val.uV 1 1), ([98], Val.uV 1 2), ([99], Val.uV 1 3)]) 0, []⟩ ∧
     loadVal (.structT [([99], .uN 1), ([97], .uN 1), ([98], .uN 1)]) ⟨encVal (.structV [([97], Val.uV 1 1), ([98], Val.uV 1 2), ([99], Val.uV 1 3)]) 0, 0, []⟩ =
       .ok (.structV [([99], Val.uV 1 3), ([97], Val.uV 1 1), ([98], Val.uV 1 2)],
         ⟨encVal (.structV [([97], Val.uV 1 1), ([98], Val.uV 1 2), ([99], Val.uV 1 3)]) 0, (encVal (.structV [([97], Val.uV 1 1), ([98], Val.uV 1 2), ([99], Val.uV 1 3)]) 0).length, []⟩)) ∧
    (storeVal (.structV [([97], Val.uV 1 1), ([98], Val.uV 1 2), ([99], Val.uV 1 3), ([100], Val.uV 1 4)]) ⟨[], []⟩ = .ok ⟨encVal (.structV [([97], Val.uV 1 1), ([98], Val.uV 1 2), ([99], Val.uV 1 3), ([100], Val.uV 1 4)]) 0, []⟩ ∧
     loadVal (.structT [([97], .uN 1), ([98], .uN 1), ([99], .uN 1)]) ⟨encVal (.structV [([97], Val.uV 1 1), ([98], Val.uV 1 2), ([99], Val.uV 1 3), ([100], Val.uV 1 4)]) 0, 0, []⟩ =
       .ok (.structV [([97], Val.uV 1 1), ([98], Val.uV 1 2), ([99], Val.uV 1 3)],
         ⟨encVal (.structV [([97], Val.uV 1 1), ([98], Val.uV 1 2), ([99], Val.uV 1 3), ([100], Val.uV 1 4)]) 0, (encVal (.structV [([97], Val.uV 1 1), ([98], Val.uV 1 2), ([99], Val.uV 1 3), ([100], Val.uV 1 4)]) 0).length, []⟩)) :=
  field_reorder_and_removal_tolerance (.uN 1) (.uN 1) (.uN 1) (.uN 1)
    (Val.uV 1 1) (Val.uV 1 2) (Val.uV 1 3) (Val.uV 1 4)
    (by simp +decide [rtWf, rawWidth]) (by simp +decide [rtWf, rawWidth])
    (by simp +decide [rtWf, rawWidth]) (by simp +decide [rtWf, rawWidth])
    (by simp [encVal, encFields, fieldOffs, PersistentWriteSavestate.entriesBytes,
      toLeBytes, u32max])
    (by simp [encVal, encFields, fieldOffs, PersistentWriteSavestate.entriesBytes,
      toLeBytes, u32max])
